import Mathlib

/-!
Verification of the pixel-splitting rebinning kernel `splitPixelFull.pyx`
(pyFAI, full pixel splitting for azimuthal integration).

This file contains a shallow embedding of the kernel into Lean 4 over exact
rational arithmetic (the C doubles of the source are IEEE-754 binary64
values, which are rationals; all constants of the source, such as the
float32/float64 machine epsilons and the double `M_PI`, are embedded as
their exact rational values).  Where a claim hinges on IEEE special values
(division by zero producing infinities and NaN), a small exact IEEE-style
value type `EF` (rationals extended with signed infinities and NaN, no
rounding, no signed zero) is used for the affected code path.

Definitions are translated from the source `src/splitPixelFull.pyx`; line
numbers in the doc comments refer to that file.
-/

set_option maxHeartbeats 1000000

namespace SplitPixelFull

/-- Machine epsilon of IEEE float32, the exact value of
`numpy.finfo(numpy.float32).eps` used at line 227 of the source. -/
def eps32 : ℚ := 1 / 2 ^ 23

/-- Machine epsilon of IEEE float64, the exact value of
`numpy.finfo(numpy.float64).eps` used at line 450 of the source. -/
def eps64 : ℚ := 1 / 2 ^ 52

/-- Exact rational value of the IEEE-754 double `M_PI`
(source line 44: `cdef double pi = M_PI`). -/
def piQ : ℚ := 884279719003555 / 281474976710656

/-- Source line 45: `cdef double piover2 = pi * 0.5` (exact in double). -/
def piover2 : ℚ := piQ * (1 / 2)

/-- Source line 216 / 441: `cdef double epsilon = 1e-10` (the tiny rounding of
the double literal is immaterial to every claim treated here). -/
def epsilon : ℚ := 1 / 10 ^ 10

/-- Indicator of a decidable proposition as a rational 0/1, modelling the
C integer value of a comparison such as `(A0<=bin0)` used in arithmetic. -/
def ind (p : Prop) [Decidable p] : ℚ := if p then 1 else 0

/-- Source lines 49-58: area of the quadrilateral ABCD,
`0.5 * fabs(((c0 - a0) * (d1 - b1)) - ((c1 - a1) * (d0 - b0)))`. -/
def area4 (a0 a1 b0 b1 c0 c1 d0 d1 : ℚ) : ℚ :=
  (1 / 2) * |((c0 - a0) * (d1 - b1)) - ((c1 - a1) * (d0 - b0))|

/-- Source lines 60-62: `cdef struct Function: double slope; double intersect`. -/
structure LinFn where
  slope : ℚ
  intersect : ℚ
deriving DecidableEq

/-- Source lines 64-74: integrates the line AB from `A0` to `B0`;
returns 0 when the two limits coincide. -/
def integrate (A0 B0 : ℚ) (AB : LinFn) : ℚ :=
  if A0 = B0 then 0
  else AB.slope * (B0 * B0 - A0 * A0) * (1 / 2) + AB.intersect * (B0 - A0)

/-- Source lines 76-84: fractional bin index `(x0 - pos0_min) / dpos`. -/
def getBinNr (x0 pos0_min dpos : ℚ) : ℚ := (x0 - pos0_min) / dpos

/-- Source lines 86-100: azimuthal fractional bin index; when `var` holds,
negative positions are shifted by `2*pi` before conversion. -/
def getBin1Nr (x0 pos0_min delta : ℚ) (var : Bool) : ℚ :=
  if var then
    (if 0 ≤ x0 then (x0 - pos0_min) / delta else (x0 + 2 * piQ - pos0_min) / delta)
  else (x0 - pos0_min) / delta

/-- Source lines 126-132: the wrap-around predicate `foo` on the four raw
`pos1` corner values, the OR of six sign patterns around `±piover2`. -/
def foo (A B C D : ℚ) : Bool :=
  (decide (piover2 < A) && decide (piover2 < B) && decide (C < -piover2) && decide (D < -piover2)) ||
  (decide (A < -piover2) && decide (B < -piover2) && decide (piover2 < C) && decide (piover2 < D)) ||
  (decide (piover2 < A) && decide (B < -piover2) && decide (piover2 < C) && decide (D < -piover2)) ||
  (decide (A < -piover2) && decide (piover2 < B) && decide (C < -piover2) && decide (piover2 < D)) ||
  (decide (piover2 < A) && decide (B < -piover2) && decide (C < -piover2) && decide (piover2 < D)) ||
  (decide (A < -piover2) && decide (piover2 < B) && decide (piover2 < C) && decide (D < -piover2))

/-- First disjunct of `foo` as a proposition: A,B above `+pi/2` and C,D
below `-pi/2`. -/
def pat1 (A B C D : ℚ) : Prop :=
  piover2 < A ∧ piover2 < B ∧ C < -piover2 ∧ D < -piover2

/-- Second disjunct of `foo` as a proposition. -/
def pat2 (A B C D : ℚ) : Prop :=
  A < -piover2 ∧ B < -piover2 ∧ piover2 < C ∧ piover2 < D

/-- Third disjunct of `foo` as a proposition. -/
def pat3 (A B C D : ℚ) : Prop :=
  piover2 < A ∧ B < -piover2 ∧ piover2 < C ∧ D < -piover2

/-- Fourth disjunct of `foo` as a proposition. -/
def pat4 (A B C D : ℚ) : Prop :=
  A < -piover2 ∧ piover2 < B ∧ C < -piover2 ∧ piover2 < D

/-- Fifth disjunct of `foo` as a proposition. -/
def pat5 (A B C D : ℚ) : Prop :=
  piover2 < A ∧ B < -piover2 ∧ C < -piover2 ∧ piover2 < D

/-- Sixth disjunct of `foo` as a proposition. -/
def pat6 (A B C D : ℚ) : Prop :=
  A < -piover2 ∧ piover2 < B ∧ piover2 < C ∧ D < -piover2

/-- Source line 199 of `fullSplit1D`: `assert bins > 1` — the parameter check
on the 1D bin count (an AssertionError is raised iff this is false). -/
def validBins1D (bins : ℕ) : Bool := decide (1 < bins)

/-- Source lines 413-416 of `fullSplit2D`: a non-positive bin count is
silently clamped to 1, no error is raised. -/
def clampBins2D (b : ℤ) : ℤ := if b ≤ 0 then 1 else b

/-- Model of `numpy.linspace(start, stop, num)[k]` over exact arithmetic:
`start + k*(stop-start)/(num-1)` for `num ≥ 2`, and `[start]` for `num = 1`. -/
def linspaceQ (start stop : ℚ) (num : ℕ) (k : ℕ) : ℚ :=
  if num ≤ 1 then start else start + (k : ℚ) * (stop - start) / ((num : ℚ) - 1)

/-- Source line 450 of `fullSplit2D`:
`pos0_max = pos0_maxin * (1 + numpy.finfo(numpy.float64).eps)`. -/
def pos0_max2D (maxin : ℚ) : ℚ := maxin * (1 + eps64)

/-- One pixel of the input `pos` array: corners A, B, C, D, each a pair
`(pos0, pos1)` (the slices `pos[idx, 0..3, 0..1]`). -/
structure Pixel where
  a0 : ℚ
  a1 : ℚ
  b0 : ℚ
  b1 : ℚ
  c0 : ℚ
  c1 : ℚ
  d0 : ℚ
  d1 : ℚ
deriving DecidableEq

/-- Default (all-zero) pixel, used only as the out-of-range list default. -/
def pixel0 : Pixel := ⟨0, 0, 0, 0, 0, 0, 0, 0⟩

/-- Python `min(A0, B0, C0, D0)` over the four corner `pos0` values
(source lines 294, 535). -/
def cornerMin0 (p : Pixel) : ℚ := min (min (min p.a0 p.b0) p.c0) p.d0

/-- Python `max(A0, B0, C0, D0)` over the four corner `pos0` values
(source lines 295, 536). -/
def cornerMax0 (p : Pixel) : ℚ := max (max (max p.a0 p.b0) p.c0) p.d0

/-- Model of `pos[:, :, 0].min()`: minimum `pos0` over every corner of every
pixel (junk seed for the empty array, on which numpy would raise). -/
def posMin0 (l : List Pixel) : ℚ :=
  (l.map cornerMin0).foldl min ((l.map cornerMin0).headD 0)

/-- Model of `pos[:, :, 0].max()`. -/
def posMax0 (l : List Pixel) : ℚ :=
  (l.map cornerMax0).foldl max ((l.map cornerMax0).headD 0)

/-- Source lines 221-226 / 444-449: lower end of the radial range, either
`min(pos0Range)` or the data minimum. -/
def rangeMin : Option (ℚ × ℚ) → ℚ → ℚ
  | some r, _ => min r.1 r.2
  | none, d => d

/-- Source lines 221-226 / 444-449: `pos0_maxin`, either `max(pos0Range)` or
the data maximum. -/
def rangeMax : Option (ℚ × ℚ) → ℚ → ℚ
  | some r, _ => max r.1 r.2
  | none, d => d

/-- Source lines 240-251: `cdummy` is the supplied dummy value, 0 otherwise. -/
def cdummyOf : Option ℚ → ℚ
  | some d => d
  | none => 0

/-- Source lines 240-251: `cddummy` is `delta_dummy` when both `dummy` and
`delta_dummy` are supplied, 0 otherwise. -/
def cddummyOf : Option ℚ → Option ℚ → ℚ
  | some _, some dd => dd
  | some _, none => 0
  | none, _ => 0

/-- Source lines 282 / 505: the dummy-match test
`check_dummy and ((cddummy == 0.0 and data == cdummy) or
(cddummy != 0.0 and fabs(data - cdummy) <= cddummy))`. -/
def dummyMatch (checkDummy : Bool) (cdummy cddummy data : ℚ) : Bool :=
  checkDummy &&
    ((decide (cddummy = 0) && decide (data = cdummy)) ||
     (decide (¬cddummy = 0) && decide (|data - cdummy| ≤ cddummy)))

/-- Source lines 278-283 of `fullSplit1D`: a pixel is skipped when the mask
test fires, or otherwise when the dummy-match test fires (mask first). -/
def skip1D (checkMask : Bool) (mval : ℤ) (checkDummy : Bool) (cdummy cddummy data : ℚ) : Bool :=
  (checkMask && decide (¬mval = 0)) || dummyMatch checkDummy cdummy cddummy data

/-- Source lines 504-509 of `fullSplit2D`: the same two per-pixel tests, with
the dummy match performed before the mask test. -/
def skip2D (checkMask : Bool) (mval : ℤ) (checkDummy : Bool) (cdummy cddummy data : ℚ) : Bool :=
  dummyMatch checkDummy cdummy cddummy data || (checkMask && decide (¬mval = 0))

/-- Source lines 304-311 / 544-551: correction pipeline
`data -= dark; data /= flat; data /= polarization; data /= solidangle`,
each step applied only when the corresponding array was supplied. -/
def correct (doDark : Bool) (darkv : ℚ) (doFlat : Bool) (flatv : ℚ)
    (doPol : Bool) (polv : ℚ) (doSol : Bool) (solv : ℚ) (data : ℚ) : ℚ :=
  let d1 := if doDark then data - darkv else data
  let d2 := if doFlat then d1 / flatv else d1
  let d3 := if doPol then d2 / polv else d2
  if doSol then d3 / solv else d3

/-- Source lines 328-335: the edge function through P and Q,
`slope = (Q1-P1)/(Q0-P0); intersect = P1 - slope*P0`. -/
def mkLine (p0 p1 q0 q1 : ℚ) : LinFn :=
  let s := (q1 - p1) / (q0 - p0)
  ⟨s, p1 - s * p0⟩

/-- Source lines 341-344: the clamped corner abscissa
`(X0<=bin0)*(X0<=(bin0+1))*bin0 + (X0>bin0)*(X0<=(bin0+1))*X0 +
(X0>bin0)*(X0>(bin0+1))*(bin0+1)`. -/
def limOf (x bin0 : ℚ) : ℚ :=
  ind (x ≤ bin0) * ind (x ≤ bin0 + 1) * bin0
    + ind (bin0 < x) * ind (x ≤ bin0 + 1) * x
    + ind (bin0 < x) * ind (bin0 + 1 < x) * (bin0 + 1)

/-- Source lines 345-348: the partial line-integral area of the (translated)
quadrilateral restricted to the column `[bin0, bin0+1]`: the sum of the four
edge integrals between clamped corner abscissas. -/
def partArea (A0 A1 B0 B1 C0 C1 D0 D1 bin0 : ℚ) : ℚ :=
  integrate (limOf A0 bin0) (limOf B0 bin0) (mkLine A0 A1 B0 B1)
    + integrate (limOf B0 bin0) (limOf C0 bin0) (mkLine B0 B1 C0 C1)
    + integrate (limOf C0 bin0) (limOf D0 bin0) (mkLine C0 C1 D0 D1)
    + integrate (limOf D0 bin0) (limOf A0 bin0) (mkLine D0 D1 A0 A1)

/-- Source lines 336-349: the weight deposited in one column of the split
path, `fabs(partialArea) * oneOverPixelArea` (coordinates already translated
by `bin0_min`). -/
def splitW (A0 A1 B0 B1 C0 C1 D0 D1 bin0 : ℚ) : ℚ :=
  |partArea A0 A1 B0 B1 C0 C1 D0 D1 bin0| * (1 / area4 A0 A1 B0 B1 C0 C1 D0 D1)

/-- Accumulator state: the `outData` and `outCount` arrays, modelled as
functions on ℤ so that out-of-bounds writes of the C code (bounds checking
is disabled in the source) are captured at their literal index. -/
structure Acc where
  outData : ℤ → ℚ
  outCount : ℤ → ℚ

/-- Pointwise `f[k] += v`. -/
def addAt (f : ℤ → ℚ) (k : ℤ) (v : ℚ) : ℤ → ℚ :=
  fun j => if j = k then f j + v else f j

/-- List of `n` consecutive integers starting at `lo` (the loop
`for bin in range(bin0_min, bin0_max + 1)`). -/
def intRange : ℤ → ℕ → List ℤ
  | _, 0 => []
  | lo, n + 1 => lo :: intRange (lo + 1) n

/-- Derived per-invocation parameters of `fullSplit1D` that the pixel loop
reads (source lines 221-283). -/
structure Env1D where
  pos0_min : ℚ
  dpos : ℚ
  bins : ℕ
  checkMask : Bool
  checkDummy : Bool
  cdummy : ℚ
  cddummy : ℚ
  doDark : Bool
  doFlat : Bool
  doPol : Bool
  doSol : Bool

/-- Source lines 285-292: corner coordinates in fractional-bin space
(`pos0` through `getBinNr`, `pos1` kept raw). -/
def binQuad (e : Env1D) (p : Pixel) : Pixel :=
  ⟨getBinNr p.a0 e.pos0_min e.dpos, p.a1,
   getBinNr p.b0 e.pos0_min e.dpos, p.b1,
   getBinNr p.c0 e.pos0_min e.dpos, p.c1,
   getBinNr p.d0 e.pos0_min e.dpos, p.d1⟩

/-- Source lines 276-353: the body of the pixel loop of `fullSplit1D` for one
pixel.  Note that the source initializes `check_pos1 = False` (line 218) and
never assigns it again (line 231 assigns the distinct, never-read name
`do_pos1`), so the `pos1Range` filter of lines 298-302 is dead code and does
not appear here. -/
def processPixel (e : Env1D) (mval : ℤ) (rawdata : ℚ)
    (darkv flatv polv solv : ℚ) (p : Pixel) (acc : Acc) : Acc :=
  if skip1D e.checkMask mval e.checkDummy e.cdummy e.cddummy rawdata then acc
  else
    let q := binQuad e p
    let min0 := cornerMin0 q
    let max0 := cornerMax0 q
    if max0 < 0 ∨ (e.bins : ℚ) ≤ min0 then acc
    else
      let data := correct e.doDark darkv e.doFlat flatv e.doPol polv e.doSol solv rawdata
      let lo := ⌊min0⌋
      let hi := ⌊max0⌋
      if lo = hi then
        ⟨addAt acc.outData lo data, addAt acc.outCount lo 1⟩
      else
        (intRange lo (hi + 1 - lo).toNat).foldl
          (fun a bin =>
            let w := splitW (q.a0 - lo) q.a1 (q.b0 - lo) q.b1 (q.c0 - lo) q.c1
              (q.d0 - lo) q.d1 ((bin - lo : ℤ) : ℚ)
            ⟨addAt a.outData bin (data * w), addAt a.outCount bin w⟩)
          acc

/-- Arguments of a call of `fullSplit1D` (source lines 158-170). -/
structure Inputs1D where
  pos : List Pixel
  weights : List ℚ
  bins : ℕ
  pos0Range : Option (ℚ × ℚ)
  pos1Range : Option (ℚ × ℚ)
  dummy : Option ℚ
  delta_dummy : Option ℚ
  mask : Option (List ℤ)
  dark : Option (List ℚ)
  flat : Option (List ℚ)
  solidangle : Option (List ℚ)
  polarization : Option (List ℚ)

/-- Element access in an optional correction array (only read when the
corresponding flag is set, in which case the source asserts the length). -/
def arrAt (o : Option (List ℚ)) (i : ℕ) : ℚ := (o.getD []).getD i 0

/-- Element access in the optional mask array. -/
def maskAt (o : Option (List ℤ)) (i : ℕ) : ℤ := (o.getD []).getD i 0

/-- Source lines 221-226. -/
def pos0_minOf (inp : Inputs1D) : ℚ := rangeMin inp.pos0Range (posMin0 inp.pos)

/-- Source lines 221-226. -/
def pos0_maxinOf (inp : Inputs1D) : ℚ := rangeMax inp.pos0Range (posMax0 inp.pos)

/-- Source line 227: `pos0_max = pos0_maxin * (1 + numpy.finfo(numpy.float32).eps)`. -/
def pos0_maxOf (inp : Inputs1D) : ℚ := pos0_maxinOf inp * (1 + eps32)

/-- Source line 236: `dpos = (pos0_max - pos0_min) / bins`. -/
def dposOf (inp : Inputs1D) : ℚ := (pos0_maxOf inp - pos0_minOf inp) / (inp.bins : ℚ)

/-- Outputs of `fullSplit1D` (source line 362), with `outMerge` and the
accumulators as functions on ℤ. -/
structure Out1D where
  outPos : ℕ → ℚ
  outMerge : ℤ → ℚ
  outData : ℤ → ℚ
  outCount : ℤ → ℚ

/-- Shallow embedding of `fullSplit1D` (source lines 158-362): derive the
per-invocation parameters, run the pixel loop over all pixels in order, then
finalize `outMerge` (source lines 355-359).  `outPos` is the linspace of
line 238. -/
def fullSplit1D (inp : Inputs1D) : Out1D :=
  let pos0_min := pos0_minOf inp
  let pos0_maxin := pos0_maxinOf inp
  let dpos := dposOf inp
  let e : Env1D :=
    ⟨pos0_min, dpos, inp.bins, inp.mask.isSome, inp.dummy.isSome,
     cdummyOf inp.dummy, cddummyOf inp.dummy inp.delta_dummy,
     inp.dark.isSome, inp.flat.isSome, inp.polarization.isSome,
     inp.solidangle.isSome⟩
  let size := inp.weights.length
  let final : Acc :=
    (List.range size).foldl
      (fun acc i =>
        processPixel e (maskAt inp.mask i) (inp.weights.getD i 0)
          (arrAt inp.dark i) (arrAt inp.flat i) (arrAt inp.polarization i)
          (arrAt inp.solidangle i) (inp.pos.getD i pixel0) acc)
      ⟨fun _ => 0, fun _ => 0⟩
  { outPos := fun k =>
      linspaceQ (pos0_min + (1 / 2) * dpos) (pos0_maxin - (1 / 2) * dpos) inp.bins k
    outMerge := fun k =>
      if 0 ≤ k ∧ k < (inp.bins : ℤ) then
        (if epsilon < final.outCount k then final.outData k / final.outCount k
         else cdummyOf inp.dummy)
      else 0
    outData := final.outData
    outCount := final.outCount }

/-- Source lines 786-791: finalization loop of `fullSplit2D`, for arbitrary
accumulator contents (hence after every run of the pixel loop):
`outMerge[i,j] = outData[i,j]/outCount[i,j]` when `outCount[i,j] > epsilon`,
else `cdummy`. -/
def finalize2D (allBins0 allBins1 : ℕ) (outData outCount : ℤ → ℤ → ℚ)
    (cdummy : ℚ) : ℤ → ℤ → ℚ :=
  fun i j =>
    if 0 ≤ i ∧ i < (allBins0 : ℤ) ∧ 0 ≤ j ∧ j < (allBins1 : ℤ) then
      (if epsilon < outCount i j then outData i j / outCount i j else cdummy)
    else 0

/-- Source line 462 of `fullSplit2D`:
`edges1 = numpy.linspace(pos1_min + 0.5 * delta1, pos1_maxin - 0.5 * delta1, all_bins1)`. -/
def edges1_2D (pos1_min pos1_maxin delta1 : ℚ) (allBins1 : ℕ) (k : ℕ) : ℚ :=
  linspaceQ (pos1_min + (1 / 2) * delta1) (pos1_maxin - (1 / 2) * delta1) allBins1 k

/-!
An exact model of IEEE-754 double arithmetic restricted to the values the
degenerate-pixel code path produces: finite values (kept as exact rationals,
since every operation on that path is exact), the two infinities, and NaN.
Signed zero is not modelled; on the inputs treated below every zero
denominator of the source arises as `+0`.
-/

/-- Exact IEEE-style value: NaN, the infinities, or a finite rational. -/
inductive EF where
  | nan : EF
  | pinf : EF
  | ninf : EF
  | fin : ℚ → EF
deriving DecidableEq

/-- IEEE negation. -/
def EF.neg : EF → EF
  | nan => nan
  | pinf => ninf
  | ninf => pinf
  | fin q => fin (-q)

/-- IEEE addition. -/
def EF.add : EF → EF → EF
  | nan, _ => nan
  | _, nan => nan
  | pinf, pinf => pinf
  | pinf, ninf => nan
  | ninf, pinf => nan
  | ninf, ninf => ninf
  | pinf, fin _ => pinf
  | fin _, pinf => pinf
  | ninf, fin _ => ninf
  | fin _, ninf => ninf
  | fin a, fin b => fin (a + b)

/-- IEEE subtraction. -/
def EF.sub (a b : EF) : EF := EF.add a (EF.neg b)

/-- IEEE multiplication: `0 * inf` is NaN. -/
def EF.mul : EF → EF → EF
  | nan, _ => nan
  | _, nan => nan
  | pinf, pinf => pinf
  | pinf, ninf => ninf
  | ninf, pinf => ninf
  | ninf, ninf => pinf
  | pinf, fin q => if q = 0 then nan else if 0 < q then pinf else ninf
  | fin q, pinf => if q = 0 then nan else if 0 < q then pinf else ninf
  | ninf, fin q => if q = 0 then nan else if 0 < q then ninf else pinf
  | fin q, ninf => if q = 0 then nan else if 0 < q then ninf else pinf
  | fin a, fin b => fin (a * b)

/-- IEEE division: a nonzero finite value divided by (positive) zero is a
signed infinity, `0/0` and `inf/inf` are NaN. -/
def EF.div : EF → EF → EF
  | nan, _ => nan
  | _, nan => nan
  | pinf, pinf => nan
  | pinf, ninf => nan
  | ninf, pinf => nan
  | ninf, ninf => nan
  | pinf, fin q => if 0 ≤ q then pinf else ninf
  | ninf, fin q => if 0 ≤ q then ninf else pinf
  | fin _, pinf => fin 0
  | fin _, ninf => fin 0
  | fin a, fin b =>
    if b = 0 then (if a = 0 then nan else if 0 < a then pinf else ninf)
    else fin (a / b)

/-- IEEE absolute value (`fabs`). -/
def EF.abs : EF → EF
  | nan => nan
  | pinf => pinf
  | ninf => pinf
  | fin q => fin |q|

/-- IEEE equality test `==`: NaN compares unequal to everything. -/
def EF.beq : EF → EF → Bool
  | nan, _ => false
  | _, nan => false
  | pinf, pinf => true
  | pinf, _ => false
  | ninf, ninf => true
  | ninf, _ => false
  | fin a, fin b => decide (a = b)
  | fin _, _ => false

/-- IEEE comparison `<=`: false whenever an operand is NaN. -/
def EF.ble : EF → EF → Bool
  | nan, _ => false
  | _, nan => false
  | ninf, _ => true
  | _, pinf => true
  | pinf, _ => false
  | fin _, ninf => false
  | fin a, fin b => decide (a ≤ b)

/-- IEEE comparison `<`: false whenever an operand is NaN. -/
def EF.blt : EF → EF → Bool
  | nan, _ => false
  | _, nan => false
  | pinf, _ => false
  | _, ninf => false
  | ninf, _ => true
  | fin _, pinf => true
  | fin a, fin b => decide (a < b)

/-- Indicator of a C comparison result as a double 0/1. -/
def indE (b : Bool) : EF := if b then EF.fin 1 else EF.fin 0

/-- Source lines 341-344 over IEEE values: the clamped corner abscissa
(written with explicit `EF` operations; the arithmetic structure is that of
`limOf`). -/
def limOfE (x bin0 : EF) : EF :=
  EF.add
    (EF.add
      (EF.mul (EF.mul (indE (EF.ble x bin0)) (indE (EF.ble x (EF.add bin0 (EF.fin 1))))) bin0)
      (EF.mul (EF.mul (indE (EF.blt bin0 x)) (indE (EF.ble x (EF.add bin0 (EF.fin 1))))) x))
    (EF.mul (EF.mul (indE (EF.blt bin0 x)) (indE (EF.blt (EF.add bin0 (EF.fin 1)) x)))
      (EF.add bin0 (EF.fin 1)))

/-- Source lines 64-74 over IEEE values: `integrate` with slope `s` and
intercept `c`; the `A0 == B0` guard uses IEEE equality. -/
def integrateE (A0 B0 s c : EF) : EF :=
  if EF.beq A0 B0 then EF.fin 0
  else
    EF.add (EF.mul (EF.mul s (EF.sub (EF.mul B0 B0) (EF.mul A0 A0))) (EF.fin (1 / 2)))
      (EF.mul c (EF.sub B0 A0))

/-- Source lines 49-58 over IEEE values: `area4`. -/
def area4E (a0 a1 b0 b1 c0 c1 d0 d1 : EF) : EF :=
  EF.mul (EF.fin (1 / 2))
    (EF.abs (EF.sub (EF.mul (EF.sub c0 a0) (EF.sub d1 b1))
      (EF.mul (EF.sub c1 a1) (EF.sub d0 b0))))

/-- Source lines 322-352 over IEEE values: the weight `tmp` the split path of
`fullSplit1D` computes for one column — slopes and intercepts of the four
edges, `oneOverPixelArea = 1.0 / areaPixel`, the four clamped integrals, and
finally `fabs(partialArea) * oneOverPixelArea`.  Corner coordinates are the
translated fractional-bin coordinates. -/
def splitTmpE (A0 A1 B0 B1 C0 C1 D0 D1 bin0 : EF) : EF :=
  let ABs := EF.div (EF.sub B1 A1) (EF.sub B0 A0)
  let ABi := EF.sub A1 (EF.mul ABs A0)
  let BCs := EF.div (EF.sub C1 B1) (EF.sub C0 B0)
  let BCi := EF.sub B1 (EF.mul BCs B0)
  let CDs := EF.div (EF.sub D1 C1) (EF.sub D0 C0)
  let CDi := EF.sub C1 (EF.mul CDs C0)
  let DAs := EF.div (EF.sub A1 D1) (EF.sub A0 D0)
  let DAi := EF.sub D1 (EF.mul DAs D0)
  let areaPixel := area4E A0 A1 B0 B1 C0 C1 D0 D1
  let oneOverPixelArea := EF.div (EF.fin 1) areaPixel
  let pa :=
    EF.add
      (EF.add
        (EF.add (integrateE (limOfE A0 bin0) (limOfE B0 bin0) ABs ABi)
          (integrateE (limOfE B0 bin0) (limOfE C0 bin0) BCs BCi))
        (integrateE (limOfE C0 bin0) (limOfE D0 bin0) CDs CDi))
      (integrateE (limOfE D0 bin0) (limOfE A0 bin0) DAs DAi)
  EF.mul (EF.abs pa) oneOverPixelArea

/-!
Proof-layer definitions for the partition-of-unity analysis of the 1D split
path (claim C1).  These re-express the quantities the split loop computes in
a form suitable for geometric reasoning; bridging lemmas connect them to the
code-shaped definitions above.
-/

/-- Twice the signed area of the triangle PQR (the standard orientation
test), used to state strict convexity of a pixel quadrilateral. -/
def crossQ (p0 p1 q0 q1 r0 r1 : ℚ) : ℚ :=
  (q0 - p0) * (r1 - p1) - (q1 - p1) * (r0 - p0)

/-- Clamp of `x` into the interval `[a, b]`. -/
def clampQ (x a b : ℚ) : ℚ := max a (min x b)

/-- Value of an edge function at `x`. -/
def evalL (f : LinFn) (x : ℚ) : ℚ := f.slope * x + f.intersect

/-- Antiderivative of an edge function. -/
def antiD (f : LinFn) (x : ℚ) : ℚ := f.slope * x * x * (1 / 2) + f.intersect * x

/-- Contribution of the directed edge PQ to the vertical strip `[a, b]`: the
`integrate` of the edge's line between the clamped abscissas (this is what
one summand of `partArea` computes when the strip is a bin column). -/
def TQ (p0 p1 q0 q1 a b : ℚ) : ℚ :=
  integrate (clampQ p0 a b) (clampQ q0 a b) (mkLine p0 p1 q0 q1)

/-- The signed partial area the split path accumulates over the strip
`[a, b]`: the sum of the four directed edge contributions. -/
def PQ (A0 A1 B0 B1 C0 C1 D0 D1 a b : ℚ) : ℚ :=
  TQ A0 A1 B0 B1 a b + TQ B0 B1 C0 C1 a b + TQ C0 C1 D0 D1 a b +
    TQ D0 D1 A0 A1 a b

/-- Twice the signed (shoelace) area of the quadrilateral ABCD. -/
def sh2 (A0 A1 B0 B1 C0 C1 D0 D1 : ℚ) : ℚ :=
  A0 * B1 - B0 * A1 + B0 * C1 - C0 * B1 + C0 * D1 - D0 * C1 + D0 * A1 - A0 * D1

/-- Minimum of the four corner abscissas (the shape of `min0`). -/
def min4 (x1 x2 x3 x4 : ℚ) : ℚ := min (min (min x1 x2) x3) x4

/-- Maximum of the four corner abscissas (the shape of `max0`). -/
def max4 (x1 x2 x3 x4 : ℚ) : ℚ := max (max (max x1 x2) x3) x4

/-- Strict convexity of the quadrilateral ABCD with counter-clockwise
orientation: each consecutive corner triple turns strictly left. -/
def ConvexCCW (p : Pixel) : Prop :=
  0 < crossQ p.a0 p.a1 p.b0 p.b1 p.c0 p.c1
    ∧ 0 < crossQ p.b0 p.b1 p.c0 p.c1 p.d0 p.d1
    ∧ 0 < crossQ p.c0 p.c1 p.d0 p.d1 p.a0 p.a1
    ∧ 0 < crossQ p.d0 p.d1 p.a0 p.a1 p.b0 p.b1

/-- Strict convexity with clockwise orientation. -/
def ConvexCW (p : Pixel) : Prop :=
  crossQ p.a0 p.a1 p.b0 p.b1 p.c0 p.c1 < 0
    ∧ crossQ p.b0 p.b1 p.c0 p.c1 p.d0 p.d1 < 0
    ∧ crossQ p.c0 p.c1 p.d0 p.d1 p.a0 p.a1 < 0
    ∧ crossQ p.d0 p.d1 p.a0 p.a1 p.b0 p.b1 < 0

/-- Strict counter-clockwise convexity of a quadrilateral given by its eight
coordinate values (the unpacked form of `ConvexCCW`). -/
def ConvexPosQ (A0 A1 B0 B1 C0 C1 D0 D1 : ℚ) : Prop :=
  0 < crossQ A0 A1 B0 B1 C0 C1 ∧ 0 < crossQ B0 B1 C0 C1 D0 D1 ∧
    0 < crossQ C0 C1 D0 D1 A0 A1 ∧ 0 < crossQ D0 D1 A0 A1 B0 B1

/-- Weight the split loop deposits in the integer bin column `[u, u+1]` of
quadrilateral ABCD (in untranslated fractional-bin coordinates):
`|partial area| / pixel area`. -/
def colW (A0 A1 B0 B1 C0 C1 D0 D1 : ℚ) (u : ℤ) : ℚ :=
  |PQ A0 A1 B0 B1 C0 C1 D0 D1 (u : ℚ) ((u : ℚ) + 1)| *
    (1 / area4 A0 A1 B0 B1 C0 C1 D0 D1)

/-!
Concrete inputs used by the counterexample / failing-input theorems.
-/

/-- Degenerate (zero-area) pixel: the four corners lie on the segment from
`(0.5, 0)` to `(1.5, 0)`, spanning two radial bins. -/
def px3 : Pixel := ⟨1/2, 0, 3/2, 0, 3/2, 0, 1/2, 0⟩

/-- Call of `fullSplit1D` with the single degenerate pixel `px3`,
`bins = 10`, `pos0Range = (0, 10)`. -/
def inp3 : Inputs1D :=
  ⟨[px3], [1], 10, some (0, 10), none, none, none, none, none, none, none, none⟩

/-- The pixel-loop environment `fullSplit1D` derives from `inp3`. -/
def env3 : Env1D :=
  ⟨pos0_minOf inp3, dposOf inp3, 10, false, false, 0, 0, false, false, false, false⟩

/-- The corners of `px3` in fractional-bin coordinates. -/
def q3 : Pixel := binQuad env3 px3

/-- Pixel whose radial extent straddles the lower range boundary:
`pos0` corners at `-0.5` and `0.5` with `pos0Range = (0, 10)`. -/
def inp4 : Inputs1D :=
  ⟨[⟨-1/2, 0, 1/2, 0, 1/2, 1, -1/2, 1⟩], [7], 10, some (0, 10), none,
   none, none, none, none, none, none, none⟩

/-- Pixel whose `pos1` corner values (all in `[5, 5.1]`) lie entirely outside
the supplied `pos1Range = (0, 1)`; its `pos0` corners sit inside bin 1. -/
def inp5 : Inputs1D :=
  ⟨[⟨6/5, 5, 13/10, 5, 13/10, 51/10, 6/5, 51/10⟩], [4], 10, some (0, 10),
   some (0, 1), none, none, none, none, none, none, none⟩

/-- Call with two bins over `pos0Range = (0, 1)` and no pixels, used for the
bin-center counterexample. -/
def inp9 : Inputs1D :=
  ⟨[], [], 2, some (0, 1), none, none, none, none, none, none, none, none⟩

/-- Call with three bins, no pixels and `dummy = -1` (the dummy-fill
scenario), used by the finalization witness. -/
def inpD : Inputs1D :=
  ⟨[], [], 3, some (0, 1), none, some (-1), none, none, none, none, none, none⟩

/-- Pixel-loop environment with `pos0_min = 0`, `dpos = 1`, 3 bins and no
corrections, used by the partition-of-unity witness. -/
def envW : Env1D := ⟨0, 1, 3, false, false, 0, 0, false, false, false, false⟩

/-- Axis-aligned unit square with corners `(0.5, 0)`, `(1.5, 0)`, `(1.5, 1)`,
`(0.5, 1)` (counter-clockwise), split evenly across bins 0 and 1. -/
def pxW : Pixel := ⟨1/2, 0, 3/2, 0, 3/2, 1, 1/2, 1⟩


/-!
Basic lemmas for the partition-of-unity development: algebraic forms of
`integrate`, properties of `clampQ`, the bridge from the code's `limOf` to
`clampQ`, and the edge/strip contribution `TQ`.
-/

lemma integrate_eq (x y : ℚ) (f : LinFn) :
    integrate x y f = f.slope * (y * y - x * x) * (1 / 2) + f.intersect * (y - x) := by
  rw [integrate]
  split_ifs with h
  · subst h; ring
  · rfl

lemma integrate_antideriv (x y : ℚ) (f : LinFn) :
    integrate x y f = antiD f y - antiD f x := by
  rw [integrate_eq, antiD, antiD]; ring

lemma integrate_trapezoid (x y : ℚ) (f : LinFn) :
    integrate x y f = (y - x) * (evalL f x + evalL f y) * (1 / 2) := by
  rw [integrate_eq, evalL, evalL]; ring

lemma clamp_left {x a : ℚ} (b : ℚ) (h : x ≤ a) : clampQ x a b = a := by
  rw [clampQ]
  exact max_eq_left (le_trans (min_le_left x b) h)

lemma clamp_right {a b x : ℚ} (hab : a ≤ b) (h : b ≤ x) : clampQ x a b = b := by
  rw [clampQ, min_eq_right h]
  exact max_eq_right hab

lemma clamp_id {a x b : ℚ} (h1 : a ≤ x) (h2 : x ≤ b) : clampQ x a b = x := by
  rw [clampQ, min_eq_left h2]
  exact max_eq_right h1

lemma clamp_degen (x a : ℚ) : clampQ x a a = a := by
  rw [clampQ]
  exact max_eq_left (min_le_right x a)

lemma limOf_eq_clamp (x u : ℚ) : limOf x u = clampQ x u (u + 1) := by
  by_cases h1 : x ≤ u
  · have h2 : x ≤ u + 1 := by linarith
    have h3 : ¬u < x := not_lt.mpr h1
    have h4 : ¬u + 1 < x := not_lt.mpr h2
    rw [clamp_left _ h1]
    simp [limOf, ind, h1, h2, h3, h4]
  · push_neg at h1
    by_cases h2 : x ≤ u + 1
    · have h3 : ¬x ≤ u := not_le.mpr h1
      have h4 : ¬u + 1 < x := not_lt.mpr h2
      rw [clamp_id (le_of_lt h1) h2]
      simp [limOf, ind, h1, h2, h3, h4]
    · push_neg at h2
      have h3 : ¬x ≤ u := not_le.mpr h1
      have h4 : ¬x ≤ u + 1 := not_le.mpr h2
      rw [clamp_right (by linarith) (le_of_lt h2)]
      simp [limOf, ind, h1, h2, h3, h4]

lemma partArea_eq_PQ (A0 A1 B0 B1 C0 C1 D0 D1 u : ℚ) :
    partArea A0 A1 B0 B1 C0 C1 D0 D1 u = PQ A0 A1 B0 B1 C0 C1 D0 D1 u (u + 1) := by
  simp only [partArea, PQ, TQ, limOf_eq_clamp]

lemma evalL_sub (f : LinFn) (x y : ℚ) :
    evalL f x - evalL f y = f.slope * (x - y) := by
  rw [evalL, evalL]; ring

lemma sub_evalL_mkLine {p0 q0 : ℚ} (p1 q1 r0 r1 : ℚ) (h : p0 ≠ q0) :
    r1 - evalL (mkLine p0 p1 q0 q1) r0 = crossQ p0 p1 q0 q1 r0 r1 / (q0 - p0) := by
  have h2 : q0 - p0 ≠ 0 := sub_ne_zero.mpr (Ne.symm h)
  simp only [evalL, mkLine, crossQ]
  field_simp
  ring

lemma evalL_mkLine_self {p0 q0 : ℚ} (p1 q1 : ℚ) (h : p0 ≠ q0) :
    evalL (mkLine p0 p1 q0 q1) p0 = p1 := by
  have hk := sub_evalL_mkLine p1 q1 p0 p1 h
  have hc : crossQ p0 p1 q0 q1 p0 p1 = 0 := by rw [crossQ]; ring
  rw [hc, zero_div] at hk
  linarith

lemma evalL_mkLine_target {p0 q0 : ℚ} (p1 q1 : ℚ) (h : p0 ≠ q0) :
    evalL (mkLine p0 p1 q0 q1) q0 = q1 := by
  have hk := sub_evalL_mkLine p1 q1 q0 q1 h
  have hc : crossQ p0 p1 q0 q1 q0 q1 = 0 := by rw [crossQ]; ring
  rw [hc, zero_div] at hk
  linarith

lemma mkLine_comm {p0 q0 : ℚ} (p1 q1 : ℚ) (h : p0 ≠ q0) :
    mkLine q0 q1 p0 p1 = mkLine p0 p1 q0 q1 := by
  have h2 : q0 - p0 ≠ 0 := sub_ne_zero.mpr (Ne.symm h)
  have h3 : p0 - q0 ≠ 0 := sub_ne_zero.mpr h
  simp only [mkLine, LinFn.mk.injEq]
  constructor
  · rw [div_eq_div_iff h3 h2]; ring
  · field_simp
    ring

lemma TQ_edge_degen (p0 p1 q0 q1 a b : ℚ) (h : p0 = q0) :
    TQ p0 p1 q0 q1 a b = 0 := by
  subst h
  rw [TQ, integrate, if_pos rfl]

lemma TQ_rev (p0 p1 q0 q1 a b : ℚ) :
    TQ q0 q1 p0 p1 a b = -TQ p0 p1 q0 q1 a b := by
  rcases eq_or_ne p0 q0 with h | h
  · rw [TQ_edge_degen _ _ _ _ _ _ h.symm, TQ_edge_degen _ _ _ _ _ _ h]; ring
  · rw [TQ, TQ, mkLine_comm _ _ h, integrate_eq, integrate_eq]; ring

lemma antiD_clamp_split (f : LinFn) {a m b : ℚ} (x : ℚ) (h1 : a ≤ m) (h2 : m ≤ b) :
    antiD f (clampQ x a m) + antiD f (clampQ x m b) =
      antiD f (clampQ x a b) + antiD f m := by
  rcases le_total x m with h | h
  · rw [clamp_left b h]
    rcases le_total x a with ha | ha
    · rw [clamp_left m ha, clamp_left b ha]
    · rw [clamp_id ha h, clamp_id ha (le_trans h h2)]
  · rw [clamp_right h1 h]
    rcases le_total x b with hb | hb
    · rw [clamp_id h hb, clamp_id (le_trans h1 h) hb]; ring
    · rw [clamp_right h2 hb, clamp_right (le_trans h1 h2) hb]; ring

lemma TQ_split (p0 p1 q0 q1 : ℚ) {a m b : ℚ} (h1 : a ≤ m) (h2 : m ≤ b) :
    TQ p0 p1 q0 q1 a b = TQ p0 p1 q0 q1 a m + TQ p0 p1 q0 q1 m b := by
  rw [TQ, TQ, TQ, integrate_antideriv, integrate_antideriv, integrate_antideriv]
  have hp := antiD_clamp_split (mkLine p0 p1 q0 q1) p0 h1 h2
  have hq := antiD_clamp_split (mkLine p0 p1 q0 q1) q0 h1 h2
  linarith

lemma PQ_split (A0 A1 B0 B1 C0 C1 D0 D1 : ℚ) {a m b : ℚ} (h1 : a ≤ m) (h2 : m ≤ b) :
    PQ A0 A1 B0 B1 C0 C1 D0 D1 a b =
      PQ A0 A1 B0 B1 C0 C1 D0 D1 a m + PQ A0 A1 B0 B1 C0 C1 D0 D1 m b := by
  rw [PQ, PQ, PQ, TQ_split A0 A1 B0 B1 h1 h2, TQ_split B0 B1 C0 C1 h1 h2,
    TQ_split C0 C1 D0 D1 h1 h2, TQ_split D0 D1 A0 A1 h1 h2]
  ring

lemma PQ_degen (A0 A1 B0 B1 C0 C1 D0 D1 a : ℚ) :
    PQ A0 A1 B0 B1 C0 C1 D0 D1 a a = 0 := by
  simp [PQ, TQ, clamp_degen, integrate]

lemma PQ_rot (A0 A1 B0 B1 C0 C1 D0 D1 a b : ℚ) :
    PQ A0 A1 B0 B1 C0 C1 D0 D1 a b = PQ B0 B1 C0 C1 D0 D1 A0 A1 a b := by
  rw [PQ, PQ]; ring

lemma PQ_rev (A0 A1 B0 B1 C0 C1 D0 D1 a b : ℚ) :
    PQ A0 A1 D0 D1 C0 C1 B0 B1 a b = -PQ A0 A1 B0 B1 C0 C1 D0 D1 a b := by
  rw [PQ, PQ, TQ_rev D0 D1 A0 A1, TQ_rev C0 C1 D0 D1, TQ_rev B0 B1 C0 C1,
    TQ_rev A0 A1 B0 B1]
  ring

lemma TQ_LL {p0 q0 a : ℚ} (p1 q1 b : ℚ) (hp : p0 ≤ a) (hq : q0 ≤ a) :
    TQ p0 p1 q0 q1 a b = 0 := by
  rw [TQ, clamp_left b hp, clamp_left b hq, integrate, if_pos rfl]

lemma TQ_RR {p0 q0 a b : ℚ} (p1 q1 : ℚ) (hab : a ≤ b) (hp : b ≤ p0) (hq : b ≤ q0) :
    TQ p0 p1 q0 q1 a b = 0 := by
  rw [TQ, clamp_right hab hp, clamp_right hab hq, integrate, if_pos rfl]

lemma TQ_LR {p0 q0 a b : ℚ} (p1 q1 : ℚ) (hab : a ≤ b) (hp : p0 ≤ a) (hq : b ≤ q0) :
    TQ p0 p1 q0 q1 a b =
      (b - a) * (evalL (mkLine p0 p1 q0 q1) a + evalL (mkLine p0 p1 q0 q1) b) * (1 / 2) := by
  rw [TQ, clamp_left b hp, clamp_right hab hq, integrate_trapezoid]

lemma TQ_RL {p0 q0 a b : ℚ} (p1 q1 : ℚ) (hab : a ≤ b) (hp : b ≤ p0) (hq : q0 ≤ a) :
    TQ p0 p1 q0 q1 a b =
      -((b - a) * (evalL (mkLine p0 p1 q0 q1) a + evalL (mkLine p0 p1 q0 q1) b) * (1 / 2)) := by
  rw [TQ, clamp_right hab hp, clamp_left b hq, integrate_trapezoid]
  ring

lemma TQ_full {a b p0 q0 : ℚ} (p1 q1 : ℚ) (hp1 : a ≤ p0) (hp2 : p0 ≤ b)
    (hq1 : a ≤ q0) (hq2 : q0 ≤ b) :
    TQ p0 p1 q0 q1 a b = (q0 - p0) * (p1 + q1) * (1 / 2) := by
  rcases eq_or_ne p0 q0 with h | h
  · rw [TQ_edge_degen _ _ _ _ _ _ h, h]; ring
  · rw [TQ, clamp_id hp1 hp2, clamp_id hq1 hq2, integrate_trapezoid,
      evalL_mkLine_self _ _ h, evalL_mkLine_target _ _ h]

lemma PQ_full (A0 A1 B0 B1 C0 C1 D0 D1 : ℚ) {lo hi : ℚ}
    (hA1 : lo ≤ A0) (hA2 : A0 ≤ hi) (hB1 : lo ≤ B0) (hB2 : B0 ≤ hi)
    (hC1 : lo ≤ C0) (hC2 : C0 ≤ hi) (hD1 : lo ≤ D0) (hD2 : D0 ≤ hi) :
    PQ A0 A1 B0 B1 C0 C1 D0 D1 lo hi = -((1 / 2) * sh2 A0 A1 B0 B1 C0 C1 D0 D1) := by
  rw [PQ, TQ_full _ _ hA1 hA2 hB1 hB2, TQ_full _ _ hB1 hB2 hC1 hC2,
    TQ_full _ _ hC1 hC2 hD1 hD2, TQ_full _ _ hD1 hD2 hA1 hA2, sh2]
  ring

lemma sh2_cross (A0 A1 B0 B1 C0 C1 D0 D1 : ℚ) :
    sh2 A0 A1 B0 B1 C0 C1 D0 D1 =
      crossQ A0 A1 B0 B1 C0 C1 + crossQ A0 A1 C0 C1 D0 D1 := by
  rw [sh2, crossQ, crossQ]; ring

lemma crossQ_rot (p0 p1 q0 q1 r0 r1 : ℚ) :
    crossQ p0 p1 q0 q1 r0 r1 = crossQ q0 q1 r0 r1 p0 p1 := by
  rw [crossQ, crossQ]; ring

lemma area4_sh2 (A0 A1 B0 B1 C0 C1 D0 D1 : ℚ) :
    area4 A0 A1 B0 B1 C0 C1 D0 D1 = (1 / 2) * |sh2 A0 A1 B0 B1 C0 C1 D0 D1| := by
  rw [area4]
  congr 1
  congr 1
  rw [sh2]; ring

lemma TQ_shift (p0 p1 q0 q1 a b t : ℚ) :
    TQ (p0 - t) p1 (q0 - t) q1 (a - t) (b - t) = TQ p0 p1 q0 q1 a b := by
  have e1 : clampQ (p0 - t) (a - t) (b - t) = clampQ p0 a b - t := by
    rw [clampQ, clampQ, ← max_sub_sub_right, ← min_sub_sub_right]
  have e2 : clampQ (q0 - t) (a - t) (b - t) = clampQ q0 a b - t := by
    rw [clampQ, clampQ, ← max_sub_sub_right, ← min_sub_sub_right]
  have e3 : q0 - t - (p0 - t) = q0 - p0 := by ring
  rw [TQ, TQ, e1, e2, integrate_eq, integrate_eq]
  simp only [mkLine, e3]
  ring

lemma PQ_shift (A0 A1 B0 B1 C0 C1 D0 D1 a b t : ℚ) :
    PQ (A0 - t) A1 (B0 - t) B1 (C0 - t) C1 (D0 - t) D1 (a - t) (b - t) =
      PQ A0 A1 B0 B1 C0 C1 D0 D1 a b := by
  rw [PQ, PQ, TQ_shift, TQ_shift, TQ_shift, TQ_shift]

lemma area4_shift (A0 A1 B0 B1 C0 C1 D0 D1 t : ℚ) :
    area4 (A0 - t) A1 (B0 - t) B1 (C0 - t) C1 (D0 - t) D1 =
      area4 A0 A1 B0 B1 C0 C1 D0 D1 := by
  rw [area4, area4]
  congr 1
  congr 1
  ring

lemma min4_le_1 (x1 x2 x3 x4 : ℚ) : min4 x1 x2 x3 x4 ≤ x1 :=
  le_trans (le_trans (min_le_left _ _) (min_le_left _ _)) (min_le_left _ _)

lemma min4_le_2 (x1 x2 x3 x4 : ℚ) : min4 x1 x2 x3 x4 ≤ x2 :=
  le_trans (le_trans (min_le_left _ _) (min_le_left _ _)) (min_le_right _ _)

lemma min4_le_3 (x1 x2 x3 x4 : ℚ) : min4 x1 x2 x3 x4 ≤ x3 :=
  le_trans (min_le_left _ _) (min_le_right _ _)

lemma min4_le_4 (x1 x2 x3 x4 : ℚ) : min4 x1 x2 x3 x4 ≤ x4 :=
  min_le_right _ _

lemma le_max4_1 (x1 x2 x3 x4 : ℚ) : x1 ≤ max4 x1 x2 x3 x4 :=
  le_trans (le_trans (le_max_left _ _) (le_max_left _ _)) (le_max_left _ _)

lemma le_max4_2 (x1 x2 x3 x4 : ℚ) : x2 ≤ max4 x1 x2 x3 x4 :=
  le_trans (le_trans (le_max_right _ _) (le_max_left _ _)) (le_max_left _ _)

lemma le_max4_3 (x1 x2 x3 x4 : ℚ) : x3 ≤ max4 x1 x2 x3 x4 :=
  le_trans (le_max_right _ _) (le_max_left _ _)

lemma le_max4_4 (x1 x2 x3 x4 : ℚ) : x4 ≤ max4 x1 x2 x3 x4 :=
  le_max_right _ _

lemma le_min4 {a x1 x2 x3 x4 : ℚ} (h1 : a ≤ x1) (h2 : a ≤ x2) (h3 : a ≤ x3)
    (h4 : a ≤ x4) : a ≤ min4 x1 x2 x3 x4 :=
  le_min (le_min (le_min h1 h2) h3) h4

lemma max4_le {a x1 x2 x3 x4 : ℚ} (h1 : x1 ≤ a) (h2 : x2 ≤ a) (h3 : x3 ≤ a)
    (h4 : x4 ≤ a) : max4 x1 x2 x3 x4 ≤ a :=
  max_le (max_le (max_le h1 h2) h3) h4

lemma max4_choice (x1 x2 x3 x4 : ℚ) :
    max4 x1 x2 x3 x4 = x1 ∨ max4 x1 x2 x3 x4 = x2 ∨ max4 x1 x2 x3 x4 = x3 ∨
      max4 x1 x2 x3 x4 = x4 := by
  rw [max4]
  rcases max_choice (max (max x1 x2) x3) x4 with h | h
  · rw [h]
    rcases max_choice (max x1 x2) x3 with h2 | h2
    · rw [h2]
      rcases max_choice x1 x2 with h3 | h3
      · rw [h3]; tauto
      · rw [h3]; tauto
    · rw [h2]; tauto
  · rw [h]; tauto

lemma min4_choice (x1 x2 x3 x4 : ℚ) :
    min4 x1 x2 x3 x4 = x1 ∨ min4 x1 x2 x3 x4 = x2 ∨ min4 x1 x2 x3 x4 = x3 ∨
      min4 x1 x2 x3 x4 = x4 := by
  rw [min4]
  rcases min_choice (min (min x1 x2) x3) x4 with h | h
  · rw [h]
    rcases min_choice (min x1 x2) x3 with h2 | h2
    · rw [h2]
      rcases min_choice x1 x2 with h3 | h3
      · rw [h3]; tauto
      · rw [h3]; tauto
    · rw [h2]; tauto
  · rw [h]; tauto

lemma min4_lt_max4 {A0 A1 B0 B1 C0 C1 : ℚ} (D0 : ℚ)
    (hc : 0 < crossQ A0 A1 B0 B1 C0 C1) :
    min4 A0 B0 C0 D0 < max4 A0 B0 C0 D0 := by
  by_contra hcon
  push_neg at hcon
  have e1 : A0 = B0 := le_antisymm
    (le_trans (le_trans (le_max4_1 A0 B0 C0 D0) hcon) (min4_le_2 A0 B0 C0 D0))
    (le_trans (le_trans (le_max4_2 A0 B0 C0 D0) hcon) (min4_le_1 A0 B0 C0 D0))
  have e2 : A0 = C0 := le_antisymm
    (le_trans (le_trans (le_max4_1 A0 B0 C0 D0) hcon) (min4_le_3 A0 B0 C0 D0))
    (le_trans (le_trans (le_max4_3 A0 B0 C0 D0) hcon) (min4_le_1 A0 B0 C0 D0))
  rw [crossQ, ← e1, ← e2] at hc
  nlinarith


/-!
Convexity core: sign of the strip contribution `PQ` on a corner-free strip.
-/

lemma affine_pos_on {s c u v x : ℚ} (hu : u ≤ x) (hx : x ≤ v)
    (h1 : 0 < s * u + c) (h2 : 0 < s * v + c) : 0 < s * x + c := by
  rcases le_total 0 s with hs | hs
  · nlinarith [mul_nonneg hs (sub_nonneg.mpr hu)]
  · nlinarith [mul_nonneg (neg_nonneg.mpr hs) (sub_nonneg.mpr hx)]

lemma clamp_low (x a b : ℚ) : a ≤ clampQ x a b := le_max_left _ _

lemma clamp_high {a b : ℚ} (x : ℚ) (hab : a ≤ b) : clampQ x a b ≤ b :=
  max_le hab (min_le_right _ _)

lemma clamp_side_left {x a b : ℚ} : x ≤ a ∨ clampQ x a b ≤ x := by
  rcases le_total x a with h | h
  · exact Or.inl h
  · right
    rw [clampQ]
    exact max_le h (min_le_left x b)

lemma clamp_side_right {x a b : ℚ} : x ≤ clampQ x a b ∨ b ≤ x := by
  rcases le_total x b with h | h
  · left
    rw [clampQ, min_eq_left h]
    exact le_max_right a x
  · exact Or.inr h

lemma side_mono_left {y a b m : ℚ} (hmb : m ≤ b) (s : y ≤ a ∨ b ≤ y) :
    y ≤ a ∨ m ≤ y :=
  s.imp id (le_trans hmb)

lemma side_mono_right {y a b m : ℚ} (ham : a ≤ m) (s : y ≤ a ∨ b ≤ y) :
    y ≤ m ∨ b ≤ y :=
  s.imp (fun h => le_trans h ham) id

lemma PQ_allLeft {A0 B0 C0 D0 a : ℚ} (A1 B1 C1 D1 b : ℚ)
    (hA : A0 ≤ a) (hB : B0 ≤ a) (hC : C0 ≤ a) (hD : D0 ≤ a) :
    PQ A0 A1 B0 B1 C0 C1 D0 D1 a b = 0 := by
  rw [PQ, TQ_LL _ _ _ hA hB, TQ_LL _ _ _ hB hC, TQ_LL _ _ _ hC hD,
    TQ_LL _ _ _ hD hA]
  ring

lemma PQ_allRight {A0 B0 C0 D0 a b : ℚ} (A1 B1 C1 D1 : ℚ) (hab : a ≤ b)
    (hA : b ≤ A0) (hB : b ≤ B0) (hC : b ≤ C0) (hD : b ≤ D0) :
    PQ A0 A1 B0 B1 C0 C1 D0 D1 a b = 0 := by
  rw [PQ, TQ_RR _ _ hab hA hB, TQ_RR _ _ hab hB hC, TQ_RR _ _ hab hC hD,
    TQ_RR _ _ hab hD hA]
  ring

lemma core_LRRR {A0 A1 B0 B1 C0 C1 D0 D1 a b : ℚ}
    (h1 : 0 < crossQ A0 A1 B0 B1 C0 C1) (h2 : 0 < crossQ B0 B1 C0 C1 D0 D1)
    (h3 : 0 < crossQ C0 C1 D0 D1 A0 A1) (h4 : 0 < crossQ D0 D1 A0 A1 B0 B1)
    (hab : a < b) (hA : A0 ≤ a) (hB : b ≤ B0) (hC : b ≤ C0) (hD : b ≤ D0) :
    PQ A0 A1 B0 B1 C0 C1 D0 D1 a b < 0 := by
  have hab' : a ≤ b := le_of_lt hab
  have hAB : A0 < B0 := lt_of_le_of_lt hA (lt_of_lt_of_le hab hB)
  have hAD : A0 < D0 := lt_of_le_of_lt hA (lt_of_lt_of_le hab hD)
  have hABne : A0 ≠ B0 := ne_of_lt hAB
  have hDAne : D0 ≠ A0 := (ne_of_lt hAD).symm
  set LAB := mkLine A0 A1 B0 B1 with hLAB
  set LDA := mkLine D0 D1 A0 A1 with hLDA
  have hAbove : 0 < crossQ A0 A1 B0 B1 D0 D1 := by
    rw [← crossQ_rot]; exact h4
  have hDab : evalL LAB D0 < D1 := by
    have hk := sub_evalL_mkLine A1 B1 D0 D1 hABne
    have hpos : 0 < D1 - evalL (mkLine A0 A1 B0 B1) D0 := by
      rw [hk]
      exact div_pos hAbove (sub_pos.mpr hAB)
    rw [← hLAB] at hpos
    linarith
  have eDA_D : evalL LDA D0 = D1 := evalL_mkLine_self _ _ hDAne
  have eDA_A : evalL LDA A0 = A1 := evalL_mkLine_target _ _ hDAne
  have eAB_A : evalL LAB A0 = A1 := evalL_mkLine_self _ _ hABne
  have eD1 : evalL LDA D0 - evalL LDA A0 = LDA.slope * (D0 - A0) := evalL_sub _ _ _
  have eD2 : evalL LAB D0 - evalL LAB A0 = LAB.slope * (D0 - A0) := evalL_sub _ _ _
  have hslope : LAB.slope < LDA.slope := by
    by_contra hcon
    push_neg at hcon
    nlinarith [mul_le_mul_of_nonneg_right hcon (le_of_lt (sub_pos.mpr hAD))]
  have ea1 : evalL LDA a - evalL LDA A0 = LDA.slope * (a - A0) := evalL_sub _ _ _
  have ea2 : evalL LAB a - evalL LAB A0 = LAB.slope * (a - A0) := evalL_sub _ _ _
  have eb1 : evalL LDA b - evalL LDA A0 = LDA.slope * (b - A0) := evalL_sub _ _ _
  have eb2 : evalL LAB b - evalL LAB A0 = LAB.slope * (b - A0) := evalL_sub _ _ _
  have gap_a : evalL LAB a ≤ evalL LDA a := by
    nlinarith [mul_nonneg (le_of_lt (sub_pos.mpr hslope)) (sub_nonneg.mpr hA)]
  have gap_b : evalL LAB b < evalL LDA b := by
    nlinarith [mul_pos (sub_pos.mpr hslope) (sub_pos.mpr (lt_of_le_of_lt hA hab))]
  rw [PQ, TQ_LR _ _ hab' hA hB, TQ_RR _ _ hab' hB hC, TQ_RR _ _ hab' hC hD,
    TQ_RL _ _ hab' hD hA, ← hLAB, ← hLDA]
  nlinarith [mul_pos (sub_pos.mpr hab)
    (show 0 < evalL LDA a + evalL LDA b - (evalL LAB a + evalL LAB b) by linarith)]

lemma core_RLLL {A0 A1 B0 B1 C0 C1 D0 D1 a b : ℚ}
    (h1 : 0 < crossQ A0 A1 B0 B1 C0 C1) (h2 : 0 < crossQ B0 B1 C0 C1 D0 D1)
    (h3 : 0 < crossQ C0 C1 D0 D1 A0 A1) (h4 : 0 < crossQ D0 D1 A0 A1 B0 B1)
    (hab : a < b) (hA : b ≤ A0) (hB : B0 ≤ a) (hC : C0 ≤ a) (hD : D0 ≤ a) :
    PQ A0 A1 B0 B1 C0 C1 D0 D1 a b < 0 := by
  have hab' : a ≤ b := le_of_lt hab
  have hBA : B0 < A0 := lt_of_le_of_lt hB (lt_of_lt_of_le hab hA)
  have hDA : D0 < A0 := lt_of_le_of_lt hD (lt_of_lt_of_le hab hA)
  have hABne : A0 ≠ B0 := (ne_of_lt hBA).symm
  have hDAne : D0 ≠ A0 := ne_of_lt hDA
  set LAB := mkLine A0 A1 B0 B1 with hLAB
  set LDA := mkLine D0 D1 A0 A1 with hLDA
  have hBelow : 0 < crossQ A0 A1 B0 B1 D0 D1 := by
    rw [← crossQ_rot]; exact h4
  have hDab : D1 < evalL LAB D0 := by
    have hk := sub_evalL_mkLine A1 B1 D0 D1 hABne
    have hneg : D1 - evalL (mkLine A0 A1 B0 B1) D0 < 0 := by
      rw [hk]
      exact div_neg_of_pos_of_neg hBelow (sub_neg.mpr hBA)
    rw [← hLAB] at hneg
    linarith
  have eDA_D : evalL LDA D0 = D1 := evalL_mkLine_self _ _ hDAne
  have eDA_A : evalL LDA A0 = A1 := evalL_mkLine_target _ _ hDAne
  have eAB_A : evalL LAB A0 = A1 := evalL_mkLine_self _ _ hABne
  have eD1 : evalL LDA D0 - evalL LDA A0 = LDA.slope * (D0 - A0) := evalL_sub _ _ _
  have eD2 : evalL LAB D0 - evalL LAB A0 = LAB.slope * (D0 - A0) := evalL_sub _ _ _
  have hslope : LAB.slope < LDA.slope := by
    by_contra hcon
    push_neg at hcon
    nlinarith [mul_le_mul_of_nonneg_right hcon (le_of_lt (sub_pos.mpr hDA))]
  have ea1 : evalL LDA a - evalL LDA A0 = LDA.slope * (a - A0) := evalL_sub _ _ _
  have ea2 : evalL LAB a - evalL LAB A0 = LAB.slope * (a - A0) := evalL_sub _ _ _
  have eb1 : evalL LDA b - evalL LDA A0 = LDA.slope * (b - A0) := evalL_sub _ _ _
  have eb2 : evalL LAB b - evalL LAB A0 = LAB.slope * (b - A0) := evalL_sub _ _ _
  have gap_b : evalL LDA b ≤ evalL LAB b := by
    nlinarith [mul_nonneg (le_of_lt (sub_pos.mpr hslope)) (sub_nonneg.mpr hA)]
  have gap_a : evalL LDA a < evalL LAB a := by
    nlinarith [mul_pos (sub_pos.mpr hslope) (sub_pos.mpr (lt_of_lt_of_le hab hA))]
  rw [PQ, TQ_RL _ _ hab' hA hB, TQ_LL _ _ _ hB hC, TQ_LL _ _ _ hC hD,
    TQ_LR _ _ hab' hD hA, ← hLAB, ← hLDA]
  nlinarith [mul_pos (sub_pos.mpr hab)
    (show 0 < evalL LAB a + evalL LAB b - (evalL LDA a + evalL LDA b) by linarith)]

lemma core_LLRR {A0 A1 B0 B1 C0 C1 D0 D1 a b : ℚ}
    (h1 : 0 < crossQ A0 A1 B0 B1 C0 C1) (h2 : 0 < crossQ B0 B1 C0 C1 D0 D1)
    (h3 : 0 < crossQ C0 C1 D0 D1 A0 A1) (h4 : 0 < crossQ D0 D1 A0 A1 B0 B1)
    (hab : a < b) (hA : A0 ≤ a) (hB : B0 ≤ a) (hC : b ≤ C0) (hD : b ≤ D0) :
    PQ A0 A1 B0 B1 C0 C1 D0 D1 a b < 0 := by
  have hab' : a ≤ b := le_of_lt hab
  have hBC : B0 < C0 := lt_of_le_of_lt hB (lt_of_lt_of_le hab hC)
  have hAD : A0 < D0 := lt_of_le_of_lt hA (lt_of_lt_of_le hab hD)
  have hBCne : B0 ≠ C0 := ne_of_lt hBC
  have hDAne : D0 ≠ A0 := (ne_of_lt hAD).symm
  set LBC := mkLine B0 B1 C0 C1 with hLBC
  set LDA := mkLine D0 D1 A0 A1 with hLDA
  have hBbelow : B1 < evalL LDA B0 := by
    have hk := sub_evalL_mkLine D1 A1 B0 B1 hDAne
    have hneg : B1 - evalL (mkLine D0 D1 A0 A1) B0 < 0 := by
      rw [hk]
      exact div_neg_of_pos_of_neg h4 (sub_neg.mpr hAD)
    rw [← hLDA] at hneg
    linarith
  have hCcross : 0 < crossQ D0 D1 A0 A1 C0 C1 := by
    rw [← crossQ_rot]; exact h3
  have hCbelow : C1 < evalL LDA C0 := by
    have hk := sub_evalL_mkLine D1 A1 C0 C1 hDAne
    have hneg : C1 - evalL (mkLine D0 D1 A0 A1) C0 < 0 := by
      rw [hk]
      exact div_neg_of_pos_of_neg hCcross (sub_neg.mpr hAD)
    rw [← hLDA] at hneg
    linarith
  have eBC_B : evalL LBC B0 = B1 := evalL_mkLine_self _ _ hBCne
  have eBC_C : evalL LBC C0 = C1 := evalL_mkLine_target _ _ hBCne
  -- the affine gap `evalL LDA - evalL LBC` is positive at B0 and C0
  have hgB : 0 < (LDA.slope - LBC.slope) * B0 + (LDA.intersect - LBC.intersect) := by
    have e : (LDA.slope - LBC.slope) * B0 + (LDA.intersect - LBC.intersect) =
        evalL LDA B0 - evalL LBC B0 := by
      rw [evalL, evalL]; ring
    rw [e, eBC_B]
    linarith
  have hgC : 0 < (LDA.slope - LBC.slope) * C0 + (LDA.intersect - LBC.intersect) := by
    have e : (LDA.slope - LBC.slope) * C0 + (LDA.intersect - LBC.intersect) =
        evalL LDA C0 - evalL LBC C0 := by
      rw [evalL, evalL]; ring
    rw [e, eBC_C]
    linarith
  have hga : 0 < (LDA.slope - LBC.slope) * a + (LDA.intersect - LBC.intersect) :=
    affine_pos_on hB (le_trans hab' hC) hgB hgC
  have hgb : 0 < (LDA.slope - LBC.slope) * b + (LDA.intersect - LBC.intersect) :=
    affine_pos_on (le_trans hB hab') hC hgB hgC
  have gap_a : evalL LBC a < evalL LDA a := by
    have e : (LDA.slope - LBC.slope) * a + (LDA.intersect - LBC.intersect) =
        evalL LDA a - evalL LBC a := by
      rw [evalL, evalL]; ring
    rw [e] at hga
    linarith
  have gap_b : evalL LBC b < evalL LDA b := by
    have e : (LDA.slope - LBC.slope) * b + (LDA.intersect - LBC.intersect) =
        evalL LDA b - evalL LBC b := by
      rw [evalL, evalL]; ring
    rw [e] at hgb
    linarith
  rw [PQ, TQ_LL _ _ _ hA hB, TQ_LR _ _ hab' hB hC, TQ_RR _ _ hab' hC hD,
    TQ_RL _ _ hab' hD hA, ← hLBC, ← hLDA]
  nlinarith [mul_pos (sub_pos.mpr hab)
    (show 0 < evalL LDA a + evalL LDA b - (evalL LBC a + evalL LBC b) by linarith)]

lemma core_LRLR {A0 A1 B0 B1 C0 C1 D0 D1 a b : ℚ}
    (h1 : 0 < crossQ A0 A1 B0 B1 C0 C1) (h2 : 0 < crossQ B0 B1 C0 C1 D0 D1)
    (h3 : 0 < crossQ C0 C1 D0 D1 A0 A1) (h4 : 0 < crossQ D0 D1 A0 A1 B0 B1)
    (hab : a < b) (hA : A0 ≤ a) (hB : b ≤ B0) (hC : C0 ≤ a) (hD : b ≤ D0) :
    False := by
  -- this corner pattern would force the segment AC (abscissas at most a) to
  -- meet the segment BD (abscissas at least b); the meeting point satisfies
  -- the polynomial identity below, which is incompatible with a < b
  set c1 := crossQ A0 A1 B0 B1 C0 C1 with hc1
  set c2 := crossQ B0 B1 C0 C1 D0 D1 with hc2
  set c3 := crossQ C0 C1 D0 D1 A0 A1 with hc3
  set c4 := crossQ D0 D1 A0 A1 B0 B1 with hc4
  have hs : 0 < c2 + c4 := by linarith
  have ht : 0 < c1 + c3 := by linarith
  have hkey : (c2 * A0 + c4 * C0) * (c1 + c3) = (c3 * B0 + c1 * D0) * (c2 + c4) := by
    rw [hc1, hc2, hc3, hc4]
    simp only [crossQ]
    ring
  have hu : c2 * A0 + c4 * C0 ≤ a * (c2 + c4) := by
    nlinarith [mul_le_mul_of_nonneg_left hA (le_of_lt h2),
      mul_le_mul_of_nonneg_left hC (le_of_lt h4)]
  have hv : b * (c1 + c3) ≤ c3 * B0 + c1 * D0 := by
    nlinarith [mul_le_mul_of_nonneg_left hB (le_of_lt h3),
      mul_le_mul_of_nonneg_left hD (le_of_lt h1)]
  nlinarith [mul_le_mul_of_nonneg_right hu (le_of_lt ht),
    mul_le_mul_of_nonneg_right hv (le_of_lt hs), mul_pos hs ht]

lemma lt_min4 {a x1 x2 x3 x4 : ℚ} (h1 : a < x1) (h2 : a < x2) (h3 : a < x3)
    (h4 : a < x4) : a < min4 x1 x2 x3 x4 :=
  lt_min (lt_min (lt_min h1 h2) h3) h4

lemma min4_ADCB (x1 x2 x3 x4 : ℚ) : min4 x1 x4 x3 x2 = min4 x1 x2 x3 x4 :=
  le_antisymm
    (le_min4 (min4_le_1 x1 x4 x3 x2) (min4_le_4 x1 x4 x3 x2)
      (min4_le_3 x1 x4 x3 x2) (min4_le_2 x1 x4 x3 x2))
    (le_min4 (min4_le_1 x1 x2 x3 x4) (min4_le_4 x1 x2 x3 x4)
      (min4_le_3 x1 x2 x3 x4) (min4_le_2 x1 x2 x3 x4))

lemma max4_ADCB (x1 x2 x3 x4 : ℚ) : max4 x1 x4 x3 x2 = max4 x1 x2 x3 x4 :=
  le_antisymm
    (max4_le (le_max4_1 x1 x2 x3 x4) (le_max4_4 x1 x2 x3 x4)
      (le_max4_3 x1 x2 x3 x4) (le_max4_2 x1 x2 x3 x4))
    (max4_le (le_max4_1 x1 x4 x3 x2) (le_max4_4 x1 x4 x3 x2)
      (le_max4_3 x1 x4 x3 x2) (le_max4_2 x1 x4 x3 x2))

/-- On a strip `[a, b]` free of corner abscissas, the contribution `PQ` of a
strictly convex CCW quadrilateral is nonpositive, and strictly negative when
the strip lies between the extreme abscissas.  Proved by the 16-way corner
side pattern dispatch into the three strict cores, the impossible diagonal
pattern, and the two trivial all-on-one-side patterns. -/
lemma slab_main {A0 A1 B0 B1 C0 C1 D0 D1 a b : ℚ}
    (h1 : 0 < crossQ A0 A1 B0 B1 C0 C1) (h2 : 0 < crossQ B0 B1 C0 C1 D0 D1)
    (h3 : 0 < crossQ C0 C1 D0 D1 A0 A1) (h4 : 0 < crossQ D0 D1 A0 A1 B0 B1)
    (hab : a < b)
    (sA : A0 ≤ a ∨ b ≤ A0) (sB : B0 ≤ a ∨ b ≤ B0)
    (sC : C0 ≤ a ∨ b ≤ C0) (sD : D0 ≤ a ∨ b ≤ D0) :
    PQ A0 A1 B0 B1 C0 C1 D0 D1 a b ≤ 0 ∧
      (min4 A0 B0 C0 D0 ≤ a → b ≤ max4 A0 B0 C0 D0 →
        PQ A0 A1 B0 B1 C0 C1 D0 D1 a b < 0) := by
  rcases sA with hA | hA <;> rcases sB with hB | hB <;>
    rcases sC with hC | hC <;> rcases sD with hD | hD
  · exact ⟨le_of_eq (PQ_allLeft A1 B1 C1 D1 b hA hB hC hD),
      fun _ hr => absurd (le_trans hr (max4_le hA hB hC hD)) (not_le.mpr hab)⟩
  · have h' : PQ A0 A1 B0 B1 C0 C1 D0 D1 a b < 0 := by
      rw [PQ_rot, PQ_rot, PQ_rot]
      exact core_RLLL h4 h1 h2 h3 hab hD hA hB hC
    exact ⟨le_of_lt h', fun _ _ => h'⟩
  · have h' : PQ A0 A1 B0 B1 C0 C1 D0 D1 a b < 0 := by
      rw [PQ_rot, PQ_rot]
      exact core_RLLL h3 h4 h1 h2 hab hC hD hA hB
    exact ⟨le_of_lt h', fun _ _ => h'⟩
  · have h' : PQ A0 A1 B0 B1 C0 C1 D0 D1 a b < 0 :=
      core_LLRR h1 h2 h3 h4 hab hA hB hC hD
    exact ⟨le_of_lt h', fun _ _ => h'⟩
  · have h' : PQ A0 A1 B0 B1 C0 C1 D0 D1 a b < 0 := by
      rw [PQ_rot]
      exact core_RLLL h2 h3 h4 h1 hab hB hC hD hA
    exact ⟨le_of_lt h', fun _ _ => h'⟩
  · exact (core_LRLR h1 h2 h3 h4 hab hA hB hC hD).elim
  · have h' : PQ A0 A1 B0 B1 C0 C1 D0 D1 a b < 0 := by
      rw [PQ_rot, PQ_rot, PQ_rot]
      exact core_LLRR h4 h1 h2 h3 hab hD hA hB hC
    exact ⟨le_of_lt h', fun _ _ => h'⟩
  · have h' : PQ A0 A1 B0 B1 C0 C1 D0 D1 a b < 0 :=
      core_LRRR h1 h2 h3 h4 hab hA hB hC hD
    exact ⟨le_of_lt h', fun _ _ => h'⟩
  · have h' : PQ A0 A1 B0 B1 C0 C1 D0 D1 a b < 0 :=
      core_RLLL h1 h2 h3 h4 hab hA hB hC hD
    exact ⟨le_of_lt h', fun _ _ => h'⟩
  · have h' : PQ A0 A1 B0 B1 C0 C1 D0 D1 a b < 0 := by
      rw [PQ_rot]
      exact core_LLRR h2 h3 h4 h1 hab hB hC hD hA
    exact ⟨le_of_lt h', fun _ _ => h'⟩
  · exact (core_LRLR h2 h3 h4 h1 hab hB hC hD hA).elim
  · have h' : PQ A0 A1 B0 B1 C0 C1 D0 D1 a b < 0 := by
      rw [PQ_rot]
      exact core_LRRR h2 h3 h4 h1 hab hB hC hD hA
    exact ⟨le_of_lt h', fun _ _ => h'⟩
  · have h' : PQ A0 A1 B0 B1 C0 C1 D0 D1 a b < 0 := by
      rw [PQ_rot, PQ_rot]
      exact core_LLRR h3 h4 h1 h2 hab hC hD hA hB
    exact ⟨le_of_lt h', fun _ _ => h'⟩
  · have h' : PQ A0 A1 B0 B1 C0 C1 D0 D1 a b < 0 := by
      rw [PQ_rot, PQ_rot]
      exact core_LRRR h3 h4 h1 h2 hab hC hD hA hB
    exact ⟨le_of_lt h', fun _ _ => h'⟩
  · have h' : PQ A0 A1 B0 B1 C0 C1 D0 D1 a b < 0 := by
      rw [PQ_rot, PQ_rot, PQ_rot]
      exact core_LRRR h4 h1 h2 h3 hab hD hA hB hC
    exact ⟨le_of_lt h', fun _ _ => h'⟩
  · exact ⟨le_of_eq (PQ_allRight A1 B1 C1 D1 (le_of_lt hab) hA hB hC hD),
      fun hl _ => absurd (le_trans (le_min4 hA hB hC hD) hl) (not_le.mpr hab)⟩

lemma slab_nonpos {A0 A1 B0 B1 C0 C1 D0 D1 a b : ℚ}
    (h1 : 0 < crossQ A0 A1 B0 B1 C0 C1) (h2 : 0 < crossQ B0 B1 C0 C1 D0 D1)
    (h3 : 0 < crossQ C0 C1 D0 D1 A0 A1) (h4 : 0 < crossQ D0 D1 A0 A1 B0 B1)
    (hab : a ≤ b)
    (sA : A0 ≤ a ∨ b ≤ A0) (sB : B0 ≤ a ∨ b ≤ B0)
    (sC : C0 ≤ a ∨ b ≤ C0) (sD : D0 ≤ a ∨ b ≤ D0) :
    PQ A0 A1 B0 B1 C0 C1 D0 D1 a b ≤ 0 := by
  rcases eq_or_lt_of_le hab with heq | hlt
  · subst heq
    exact le_of_eq (PQ_degen A0 A1 B0 B1 C0 C1 D0 D1 a)
  · exact (slab_main h1 h2 h3 h4 hlt sA sB sC sD).1

lemma slab_neg {A0 A1 B0 B1 C0 C1 D0 D1 a b : ℚ}
    (h1 : 0 < crossQ A0 A1 B0 B1 C0 C1) (h2 : 0 < crossQ B0 B1 C0 C1 D0 D1)
    (h3 : 0 < crossQ C0 C1 D0 D1 A0 A1) (h4 : 0 < crossQ D0 D1 A0 A1 B0 B1)
    (hab : a < b)
    (sA : A0 ≤ a ∨ b ≤ A0) (sB : B0 ≤ a ∨ b ≤ B0)
    (sC : C0 ≤ a ∨ b ≤ C0) (sD : D0 ≤ a ∨ b ≤ D0)
    (hl : min4 A0 B0 C0 D0 ≤ a) (hr : b ≤ max4 A0 B0 C0 D0) :
    PQ A0 A1 B0 B1 C0 C1 D0 D1 a b < 0 :=
  (slab_main h1 h2 h3 h4 hab sA sB sC sD).2 hl hr

/-- Cutting the strip at the abscissa of corner A reduces nonpositivity to
side conditions on B, C, D only. -/
lemma PQ_nonpos_BCD {A0 A1 B0 B1 C0 C1 D0 D1 a b : ℚ}
    (h1 : 0 < crossQ A0 A1 B0 B1 C0 C1) (h2 : 0 < crossQ B0 B1 C0 C1 D0 D1)
    (h3 : 0 < crossQ C0 C1 D0 D1 A0 A1) (h4 : 0 < crossQ D0 D1 A0 A1 B0 B1)
    (hab : a ≤ b)
    (sB : B0 ≤ a ∨ b ≤ B0) (sC : C0 ≤ a ∨ b ≤ C0) (sD : D0 ≤ a ∨ b ≤ D0) :
    PQ A0 A1 B0 B1 C0 C1 D0 D1 a b ≤ 0 := by
  set m := clampQ A0 a b with hm
  have ham : a ≤ m := by rw [hm]; exact clamp_low A0 a b
  have hmb : m ≤ b := by rw [hm]; exact clamp_high A0 hab
  have sA1 : A0 ≤ a ∨ m ≤ A0 := by rw [hm]; exact clamp_side_left
  have sA2 : A0 ≤ m ∨ b ≤ A0 := by rw [hm]; exact clamp_side_right
  have p1 := slab_nonpos h1 h2 h3 h4 ham sA1 (side_mono_left hmb sB)
    (side_mono_left hmb sC) (side_mono_left hmb sD)
  have p2 := slab_nonpos h1 h2 h3 h4 hmb sA2 (side_mono_right ham sB)
    (side_mono_right ham sC) (side_mono_right ham sD)
  rw [PQ_split A0 A1 B0 B1 C0 C1 D0 D1 ham hmb]
  linarith

/-- Cutting additionally at corner B. -/
lemma PQ_nonpos_CD {A0 A1 B0 B1 C0 C1 D0 D1 a b : ℚ}
    (h1 : 0 < crossQ A0 A1 B0 B1 C0 C1) (h2 : 0 < crossQ B0 B1 C0 C1 D0 D1)
    (h3 : 0 < crossQ C0 C1 D0 D1 A0 A1) (h4 : 0 < crossQ D0 D1 A0 A1 B0 B1)
    (hab : a ≤ b) (sC : C0 ≤ a ∨ b ≤ C0) (sD : D0 ≤ a ∨ b ≤ D0) :
    PQ A0 A1 B0 B1 C0 C1 D0 D1 a b ≤ 0 := by
  set m := clampQ B0 a b with hm
  have ham : a ≤ m := by rw [hm]; exact clamp_low B0 a b
  have hmb : m ≤ b := by rw [hm]; exact clamp_high B0 hab
  have sB1 : B0 ≤ a ∨ m ≤ B0 := by rw [hm]; exact clamp_side_left
  have sB2 : B0 ≤ m ∨ b ≤ B0 := by rw [hm]; exact clamp_side_right
  have p1 := PQ_nonpos_BCD h1 h2 h3 h4 ham sB1 (side_mono_left hmb sC)
    (side_mono_left hmb sD)
  have p2 := PQ_nonpos_BCD h1 h2 h3 h4 hmb sB2 (side_mono_right ham sC)
    (side_mono_right ham sD)
  rw [PQ_split A0 A1 B0 B1 C0 C1 D0 D1 ham hmb]
  linarith

/-- Cutting additionally at corner C. -/
lemma PQ_nonpos_D {A0 A1 B0 B1 C0 C1 D0 D1 a b : ℚ}
    (h1 : 0 < crossQ A0 A1 B0 B1 C0 C1) (h2 : 0 < crossQ B0 B1 C0 C1 D0 D1)
    (h3 : 0 < crossQ C0 C1 D0 D1 A0 A1) (h4 : 0 < crossQ D0 D1 A0 A1 B0 B1)
    (hab : a ≤ b) (sD : D0 ≤ a ∨ b ≤ D0) :
    PQ A0 A1 B0 B1 C0 C1 D0 D1 a b ≤ 0 := by
  set m := clampQ C0 a b with hm
  have ham : a ≤ m := by rw [hm]; exact clamp_low C0 a b
  have hmb : m ≤ b := by rw [hm]; exact clamp_high C0 hab
  have sC1 : C0 ≤ a ∨ m ≤ C0 := by rw [hm]; exact clamp_side_left
  have sC2 : C0 ≤ m ∨ b ≤ C0 := by rw [hm]; exact clamp_side_right
  have p1 := PQ_nonpos_CD h1 h2 h3 h4 ham sC1 (side_mono_left hmb sD)
  have p2 := PQ_nonpos_CD h1 h2 h3 h4 hmb sC2 (side_mono_right ham sD)
  rw [PQ_split A0 A1 B0 B1 C0 C1 D0 D1 ham hmb]
  linarith

/-- The strip contribution of a strictly convex CCW quadrilateral is
nonpositive on every strip. -/
lemma PQ_nonpos {A0 A1 B0 B1 C0 C1 D0 D1 a b : ℚ}
    (h1 : 0 < crossQ A0 A1 B0 B1 C0 C1) (h2 : 0 < crossQ B0 B1 C0 C1 D0 D1)
    (h3 : 0 < crossQ C0 C1 D0 D1 A0 A1) (h4 : 0 < crossQ D0 D1 A0 A1 B0 B1)
    (hab : a ≤ b) :
    PQ A0 A1 B0 B1 C0 C1 D0 D1 a b ≤ 0 := by
  set m := clampQ D0 a b with hm
  have ham : a ≤ m := by rw [hm]; exact clamp_low D0 a b
  have hmb : m ≤ b := by rw [hm]; exact clamp_high D0 hab
  have sD1 : D0 ≤ a ∨ m ≤ D0 := by rw [hm]; exact clamp_side_left
  have sD2 : D0 ≤ m ∨ b ≤ D0 := by rw [hm]; exact clamp_side_right
  have p1 := PQ_nonpos_D h1 h2 h3 h4 ham sD1
  have p2 := PQ_nonpos_D h1 h2 h3 h4 hmb sD2
  rw [PQ_split A0 A1 B0 B1 C0 C1 D0 D1 ham hmb]
  linarith

/-- A unit column that meets the open abscissa range of a strictly convex CCW
quadrilateral receives a strictly negative contribution. -/
lemma column_neg {A0 A1 B0 B1 C0 C1 D0 D1 : ℚ}
    (h1 : 0 < crossQ A0 A1 B0 B1 C0 C1) (h2 : 0 < crossQ B0 B1 C0 C1 D0 D1)
    (h3 : 0 < crossQ C0 C1 D0 D1 A0 A1) (h4 : 0 < crossQ D0 D1 A0 A1 B0 B1)
    {u : ℚ} (hu1 : u < max4 A0 B0 C0 D0) (hu2 : min4 A0 B0 C0 D0 < u + 1) :
    PQ A0 A1 B0 B1 C0 C1 D0 D1 u (u + 1) < 0 := by
  set al := max u (min4 A0 B0 C0 D0) with hal
  have hual : u ≤ al := by rw [hal]; exact le_max_left _ _
  have hal1 : al < u + 1 := by
    rw [hal]
    exact max_lt (by linarith) hu2
  have halmax : al < max4 A0 B0 C0 D0 := by
    rw [hal]
    exact max_lt hu1 (min4_lt_max4 D0 h1)
  set cA := if al < A0 then A0 else u + 1 with hcA
  set cB := if al < B0 then B0 else u + 1 with hcB
  set cC := if al < C0 then C0 else u + 1 with hcC
  set cD := if al < D0 then D0 else u + 1 with hcD
  set be := min (min4 cA cB cC cD) (u + 1) with hbe
  have hgtA : al < cA := by
    rw [hcA]
    split_ifs with h
    · exact h
    · exact hal1
  have hgtB : al < cB := by
    rw [hcB]
    split_ifs with h
    · exact h
    · exact hal1
  have hgtC : al < cC := by
    rw [hcC]
    split_ifs with h
    · exact h
    · exact hal1
  have hgtD : al < cD := by
    rw [hcD]
    split_ifs with h
    · exact h
    · exact hal1
  have halbe : al < be := by
    rw [hbe]
    exact lt_min (lt_min4 hgtA hgtB hgtC hgtD) hal1
  have hbe1 : be ≤ u + 1 := by rw [hbe]; exact min_le_right _ _
  have sideA : A0 ≤ al ∨ be ≤ A0 := by
    rcases le_or_lt A0 al with h | h
    · exact Or.inl h
    · right
      have hc : cA = A0 := by rw [hcA]; exact if_pos h
      calc be ≤ min4 cA cB cC cD := by rw [hbe]; exact min_le_left _ _
        _ ≤ cA := min4_le_1 _ _ _ _
        _ = A0 := hc
  have sideB : B0 ≤ al ∨ be ≤ B0 := by
    rcases le_or_lt B0 al with h | h
    · exact Or.inl h
    · right
      have hc : cB = B0 := by rw [hcB]; exact if_pos h
      calc be ≤ min4 cA cB cC cD := by rw [hbe]; exact min_le_left _ _
        _ ≤ cB := min4_le_2 _ _ _ _
        _ = B0 := hc
  have sideC : C0 ≤ al ∨ be ≤ C0 := by
    rcases le_or_lt C0 al with h | h
    · exact Or.inl h
    · right
      have hc : cC = C0 := by rw [hcC]; exact if_pos h
      calc be ≤ min4 cA cB cC cD := by rw [hbe]; exact min_le_left _ _
        _ ≤ cC := min4_le_3 _ _ _ _
        _ = C0 := hc
  have sideD : D0 ≤ al ∨ be ≤ D0 := by
    rcases le_or_lt D0 al with h | h
    · exact Or.inl h
    · right
      have hc : cD = D0 := by rw [hcD]; exact if_pos h
      calc be ≤ min4 cA cB cC cD := by rw [hbe]; exact min_le_left _ _
        _ ≤ cD := min4_le_4 _ _ _ _
        _ = D0 := hc
  have hl : min4 A0 B0 C0 D0 ≤ al := by rw [hal]; exact le_max_right _ _
  have hr : be ≤ max4 A0 B0 C0 D0 := by
    rcases max4_choice A0 B0 C0 D0 with h | h | h | h
    · have hc : cA = A0 := by rw [hcA]; exact if_pos (h ▸ halmax)
      calc be ≤ min4 cA cB cC cD := by rw [hbe]; exact min_le_left _ _
        _ ≤ cA := min4_le_1 _ _ _ _
        _ = max4 A0 B0 C0 D0 := by rw [hc, h]
    · have hc : cB = B0 := by rw [hcB]; exact if_pos (h ▸ halmax)
      calc be ≤ min4 cA cB cC cD := by rw [hbe]; exact min_le_left _ _
        _ ≤ cB := min4_le_2 _ _ _ _
        _ = max4 A0 B0 C0 D0 := by rw [hc, h]
    · have hc : cC = C0 := by rw [hcC]; exact if_pos (h ▸ halmax)
      calc be ≤ min4 cA cB cC cD := by rw [hbe]; exact min_le_left _ _
        _ ≤ cC := min4_le_3 _ _ _ _
        _ = max4 A0 B0 C0 D0 := by rw [hc, h]
    · have hc : cD = D0 := by rw [hcD]; exact if_pos (h ▸ halmax)
      calc be ≤ min4 cA cB cC cD := by rw [hbe]; exact min_le_left _ _
        _ ≤ cD := min4_le_4 _ _ _ _
        _ = max4 A0 B0 C0 D0 := by rw [hc, h]
  have pmid : PQ A0 A1 B0 B1 C0 C1 D0 D1 al be < 0 :=
    slab_neg h1 h2 h3 h4 halbe sideA sideB sideC sideD hl hr
  have pleft : PQ A0 A1 B0 B1 C0 C1 D0 D1 u al ≤ 0 :=
    PQ_nonpos h1 h2 h3 h4 hual
  have pright : PQ A0 A1 B0 B1 C0 C1 D0 D1 be (u + 1) ≤ 0 :=
    PQ_nonpos h1 h2 h3 h4 hbe1
  rw [PQ_split A0 A1 B0 B1 C0 C1 D0 D1 hual (by linarith : al ≤ u + 1),
    PQ_split A0 A1 B0 B1 C0 C1 D0 D1 (le_of_lt halbe) hbe1]
  linarith

/-- The shoelace value of a strictly convex CCW quadrilateral is positive. -/
lemma sh2_pos {A0 A1 B0 B1 C0 C1 D0 D1 : ℚ}
    (h1 : 0 < crossQ A0 A1 B0 B1 C0 C1) (h3 : 0 < crossQ C0 C1 D0 D1 A0 A1) :
    0 < sh2 A0 A1 B0 B1 C0 C1 D0 D1 := by
  rw [sh2_cross]
  have h : crossQ A0 A1 C0 C1 D0 D1 = crossQ C0 C1 D0 D1 A0 A1 :=
    crossQ_rot A0 A1 C0 C1 D0 D1
  linarith

lemma area4_of_ccw {A0 A1 B0 B1 C0 C1 D0 D1 : ℚ}
    (h1 : 0 < crossQ A0 A1 B0 B1 C0 C1) (h3 : 0 < crossQ C0 C1 D0 D1 A0 A1) :
    area4 A0 A1 B0 B1 C0 C1 D0 D1 = (1 / 2) * sh2 A0 A1 B0 B1 C0 C1 D0 D1 := by
  rw [area4_sh2, abs_of_pos (sh2_pos h1 h3)]

lemma crossQ_swap (p0 p1 q0 q1 r0 r1 : ℚ) :
    crossQ p0 p1 r0 r1 q0 q1 = -crossQ p0 p1 q0 q1 r0 r1 := by
  rw [crossQ, crossQ]; ring

lemma sh2_rev (A0 A1 B0 B1 C0 C1 D0 D1 : ℚ) :
    sh2 A0 A1 D0 D1 C0 C1 B0 B1 = -sh2 A0 A1 B0 B1 C0 C1 D0 D1 := by
  rw [sh2, sh2]; ring

lemma area4_rev (A0 A1 B0 B1 C0 C1 D0 D1 : ℚ) :
    area4 A0 A1 D0 D1 C0 C1 B0 B1 = area4 A0 A1 B0 B1 C0 C1 D0 D1 := by
  rw [area4_sh2, area4_sh2, sh2_rev, abs_neg]

lemma colW_nonneg (A0 A1 B0 B1 C0 C1 D0 D1 : ℚ) (u : ℤ) :
    0 ≤ colW A0 A1 B0 B1 C0 C1 D0 D1 u := by
  rw [colW]
  apply mul_nonneg (abs_nonneg _)
  apply one_div_nonneg.mpr
  rw [area4]
  positivity

lemma colW_rev (A0 A1 B0 B1 C0 C1 D0 D1 : ℚ) (u : ℤ) :
    colW A0 A1 D0 D1 C0 C1 B0 B1 u = colW A0 A1 B0 B1 C0 C1 D0 D1 u := by
  rw [colW, colW, PQ_rev, abs_neg, area4_rev]

/-- Reversing a strictly clockwise quadrilateral (keeping corner A first)
gives a strictly counter-clockwise one. -/
lemma ConvexPosQ_rev {A0 A1 B0 B1 C0 C1 D0 D1 : ℚ}
    (h1 : crossQ A0 A1 B0 B1 C0 C1 < 0) (h2 : crossQ B0 B1 C0 C1 D0 D1 < 0)
    (h3 : crossQ C0 C1 D0 D1 A0 A1 < 0) (h4 : crossQ D0 D1 A0 A1 B0 B1 < 0) :
    ConvexPosQ A0 A1 D0 D1 C0 C1 B0 B1 := by
  refine ⟨?_, ?_, ?_, ?_⟩
  · have e1 := crossQ_swap A0 A1 C0 C1 D0 D1
    have e2 := crossQ_rot A0 A1 C0 C1 D0 D1
    linarith
  · have e1 := crossQ_swap D0 D1 B0 B1 C0 C1
    have e2 := crossQ_rot B0 B1 C0 C1 D0 D1
    have e3 := crossQ_rot C0 C1 D0 D1 B0 B1
    linarith
  · have e1 := crossQ_swap C0 C1 A0 A1 B0 B1
    have e2 := crossQ_rot A0 A1 B0 B1 C0 C1
    have e3 := crossQ_rot B0 B1 C0 C1 A0 A1
    linarith
  · have e1 := crossQ_swap B0 B1 D0 D1 A0 A1
    have e2 := crossQ_rot D0 D1 A0 A1 B0 B1
    have e3 := crossQ_rot A0 A1 B0 B1 D0 D1
    linarith

/-- The weight the split loop computes for bin `k` (in coordinates translated
by `l`) is the untranslated column weight `colW`. -/
lemma splitW_eq_colW (A0 A1 B0 B1 C0 C1 D0 D1 : ℚ) (l k : ℤ) :
    splitW (A0 - (l : ℚ)) A1 (B0 - (l : ℚ)) B1 (C0 - (l : ℚ)) C1 (D0 - (l : ℚ)) D1
        (((k - l : ℤ) : ℚ)) = colW A0 A1 B0 B1 C0 C1 D0 D1 k := by
  have e1 : ((k - l : ℤ) : ℚ) = (k : ℚ) - (l : ℚ) := by push_cast; ring
  rw [splitW, partArea_eq_PQ, colW, e1]
  have e2 : (k : ℚ) - (l : ℚ) + 1 = ((k : ℚ) + 1) - (l : ℚ) := by ring
  rw [e2, PQ_shift, area4_shift]

lemma colW_pos {A0 A1 B0 B1 C0 C1 D0 D1 : ℚ}
    (h1 : 0 < crossQ A0 A1 B0 B1 C0 C1) (h2 : 0 < crossQ B0 B1 C0 C1 D0 D1)
    (h3 : 0 < crossQ C0 C1 D0 D1 A0 A1) (h4 : 0 < crossQ D0 D1 A0 A1 B0 B1)
    (u : ℤ) (hu1 : (u : ℚ) < max4 A0 B0 C0 D0)
    (hu2 : min4 A0 B0 C0 D0 < (u : ℚ) + 1) :
    0 < colW A0 A1 B0 B1 C0 C1 D0 D1 u := by
  have hPQ := column_neg h1 h2 h3 h4 hu1 hu2
  have hA : 0 < area4 A0 A1 B0 B1 C0 C1 D0 D1 := by
    rw [area4_of_ccw h1 h3]
    linarith [sh2_pos h1 h3]
  rw [colW, abs_of_nonpos (le_of_lt hPQ)]
  exact mul_pos (by linarith) (one_div_pos.mpr hA)

/-- A column entirely to the right of all corners gets zero weight. -/
lemma colW_zero_left (A0 A1 B0 B1 C0 C1 D0 D1 : ℚ) (u : ℤ)
    (hA : A0 ≤ (u : ℚ)) (hB : B0 ≤ (u : ℚ)) (hC : C0 ≤ (u : ℚ))
    (hD : D0 ≤ (u : ℚ)) :
    colW A0 A1 B0 B1 C0 C1 D0 D1 u = 0 := by
  rw [colW, PQ_allLeft A1 B1 C1 D1 _ hA hB hC hD, abs_zero, zero_mul]

lemma sum_Ico_split (f : ℤ → ℚ) {a b c : ℤ} (hab : a ≤ b) (hbc : b ≤ c) :
    Finset.sum (Finset.Ico a c) f =
      Finset.sum (Finset.Ico a b) f + Finset.sum (Finset.Ico b c) f := by
  rw [← Finset.Ico_union_Ico_eq_Ico hab hbc,
    Finset.sum_union (Finset.Ico_disjoint_Ico_consecutive a b c)]

lemma sum_Ico_singleton (f : ℤ → ℚ) (a : ℤ) :
    Finset.sum (Finset.Ico a (a + 1)) f = f a := by
  have h : Finset.Ico a (a + 1) = {a} := by
    ext x
    simp only [Finset.mem_Ico, Finset.mem_singleton]
    omega
  rw [h, Finset.sum_singleton]

/-- The column contributions `PQ (k, k+1)` telescope to the full strip
(`n` columns starting at `a`). -/
lemma sum_PQ_telescope_nat (A0 A1 B0 B1 C0 C1 D0 D1 : ℚ) (a : ℤ) (n : ℕ) :
    Finset.sum (Finset.Ico a (a + (n : ℤ)))
        (fun k => PQ A0 A1 B0 B1 C0 C1 D0 D1 (k : ℚ) ((k : ℚ) + 1)) =
      PQ A0 A1 B0 B1 C0 C1 D0 D1 (a : ℚ) ((a + (n : ℤ) : ℤ) : ℚ) := by
  induction n with
  | zero =>
      simp only [Nat.cast_zero, add_zero]
      rw [Finset.Ico_self, Finset.sum_empty, PQ_degen]
  | succ n ih =>
      have e1 : a + ((n + 1 : ℕ) : ℤ) = a + (n : ℤ) + 1 := by push_cast; ring
      rw [e1, sum_Ico_split _ (by omega : a ≤ a + (n : ℤ))
        (by omega : a + (n : ℤ) ≤ a + (n : ℤ) + 1), ih, sum_Ico_singleton]
      have hn0 : (0 : ℚ) ≤ (n : ℚ) := Nat.cast_nonneg n
      push_cast
      rw [← PQ_split A0 A1 B0 B1 C0 C1 D0 D1
        (by linarith : (a : ℚ) ≤ (a : ℚ) + (n : ℚ))
        (by linarith : (a : ℚ) + (n : ℚ) ≤ (a : ℚ) + (n : ℚ) + 1)]

/-- The column contributions `PQ (k, k+1)` telescope to the full strip. -/
lemma sum_PQ_telescope (A0 A1 B0 B1 C0 C1 D0 D1 : ℚ) {a b : ℤ} (hab : a ≤ b) :
    Finset.sum (Finset.Ico a b)
        (fun k => PQ A0 A1 B0 B1 C0 C1 D0 D1 (k : ℚ) ((k : ℚ) + 1)) =
      PQ A0 A1 B0 B1 C0 C1 D0 D1 (a : ℚ) (b : ℚ) := by
  obtain ⟨n, rfl⟩ : ∃ n : ℕ, b = a + (n : ℤ) := ⟨(b - a).toNat, by omega⟩
  exact sum_PQ_telescope_nat A0 A1 B0 B1 C0 C1 D0 D1 a n

/-- Partition of unity over the touched columns: for a strictly convex CCW
quadrilateral whose abscissas lie in `[lo, hi+1]`, the column weights sum
to 1. -/
lemma colW_sum {A0 A1 B0 B1 C0 C1 D0 D1 : ℚ}
    (h1 : 0 < crossQ A0 A1 B0 B1 C0 C1) (h2 : 0 < crossQ B0 B1 C0 C1 D0 D1)
    (h3 : 0 < crossQ C0 C1 D0 D1 A0 A1) (h4 : 0 < crossQ D0 D1 A0 A1 B0 B1)
    {lo hi : ℤ} (hlo : (lo : ℚ) ≤ min4 A0 B0 C0 D0)
    (hhi : max4 A0 B0 C0 D0 < (hi : ℚ) + 1) :
    Finset.sum (Finset.Ico lo (hi + 1)) (colW A0 A1 B0 B1 C0 C1 D0 D1) = 1 := by
  have hsh := sh2_pos h1 h3
  have harea := area4_of_ccw h1 h3
  have hlohi : lo ≤ hi := by
    have hmm : (lo : ℚ) < ((hi + 1 : ℤ) : ℚ) := by
      push_cast
      calc (lo : ℚ) ≤ min4 A0 B0 C0 D0 := hlo
        _ < max4 A0 B0 C0 D0 := min4_lt_max4 D0 h1
        _ < (hi : ℚ) + 1 := hhi
    have hz : lo < hi + 1 := by exact_mod_cast hmm
    omega
  have hstep : ∀ k ∈ Finset.Ico lo (hi + 1),
      colW A0 A1 B0 B1 C0 C1 D0 D1 k =
        -PQ A0 A1 B0 B1 C0 C1 D0 D1 (k : ℚ) ((k : ℚ) + 1) *
          (1 / area4 A0 A1 B0 B1 C0 C1 D0 D1) := by
    intro k _
    rw [colW,
      abs_of_nonpos (PQ_nonpos h1 h2 h3 h4 (by linarith : (k : ℚ) ≤ (k : ℚ) + 1))]
  rw [Finset.sum_congr rfl hstep, ← Finset.sum_mul, Finset.sum_neg_distrib,
    sum_PQ_telescope A0 A1 B0 B1 C0 C1 D0 D1 (by omega : lo ≤ hi + 1)]
  have e : ((hi + 1 : ℤ) : ℚ) = (hi : ℚ) + 1 := by push_cast; ring
  have hb1 : (lo : ℚ) ≤ A0 := le_trans hlo (min4_le_1 _ _ _ _)
  have hb2 : A0 ≤ (hi : ℚ) + 1 := le_trans (le_max4_1 A0 B0 C0 D0) (le_of_lt hhi)
  have hb3 : (lo : ℚ) ≤ B0 := le_trans hlo (min4_le_2 _ _ _ _)
  have hb4 : B0 ≤ (hi : ℚ) + 1 := le_trans (le_max4_2 A0 B0 C0 D0) (le_of_lt hhi)
  have hb5 : (lo : ℚ) ≤ C0 := le_trans hlo (min4_le_3 _ _ _ _)
  have hb6 : C0 ≤ (hi : ℚ) + 1 := le_trans (le_max4_3 A0 B0 C0 D0) (le_of_lt hhi)
  have hb7 : (lo : ℚ) ≤ D0 := le_trans hlo (min4_le_4 _ _ _ _)
  have hb8 : D0 ≤ (hi : ℚ) + 1 := le_trans (le_max4_4 A0 B0 C0 D0) (le_of_lt hhi)
  rw [e, PQ_full A0 A1 B0 B1 C0 C1 D0 D1 hb1 hb2 hb3 hb4 hb5 hb6 hb7 hb8, harea]
  have hne : sh2 A0 A1 B0 B1 C0 C1 D0 D1 ≠ 0 := ne_of_gt hsh
  field_simp

/-- `colW_sum` for either orientation (clockwise quadrilaterals are handled
through the reversal `(A, D, C, B)`). -/
lemma colW_sum_or {A0 A1 B0 B1 C0 C1 D0 D1 : ℚ}
    (hcx : ConvexPosQ A0 A1 B0 B1 C0 C1 D0 D1 ∨
      ConvexPosQ A0 A1 D0 D1 C0 C1 B0 B1)
    {lo hi : ℤ} (hlo : (lo : ℚ) ≤ min4 A0 B0 C0 D0)
    (hhi : max4 A0 B0 C0 D0 < (hi : ℚ) + 1) :
    Finset.sum (Finset.Ico lo (hi + 1)) (colW A0 A1 B0 B1 C0 C1 D0 D1) = 1 := by
  rcases hcx with h | h
  · exact colW_sum h.1 h.2.1 h.2.2.1 h.2.2.2 hlo hhi
  · have e : ∀ k ∈ Finset.Ico lo (hi + 1),
        colW A0 A1 B0 B1 C0 C1 D0 D1 k = colW A0 A1 D0 D1 C0 C1 B0 B1 k := by
      intro k _
      rw [colW_rev]
    rw [Finset.sum_congr rfl e]
    exact colW_sum h.1 h.2.1 h.2.2.1 h.2.2.2
      (by rw [min4_ADCB]; exact hlo) (by rw [max4_ADCB]; exact hhi)

/-- `colW_pos` for either orientation. -/
lemma colW_pos_or {A0 A1 B0 B1 C0 C1 D0 D1 : ℚ}
    (hcx : ConvexPosQ A0 A1 B0 B1 C0 C1 D0 D1 ∨
      ConvexPosQ A0 A1 D0 D1 C0 C1 B0 B1)
    (u : ℤ) (hu1 : (u : ℚ) < max4 A0 B0 C0 D0)
    (hu2 : min4 A0 B0 C0 D0 < (u : ℚ) + 1) :
    0 < colW A0 A1 B0 B1 C0 C1 D0 D1 u := by
  rcases hcx with h | h
  · exact colW_pos h.1 h.2.1 h.2.2.1 h.2.2.2 u hu1 hu2
  · rw [← colW_rev]
    exact colW_pos h.1 h.2.1 h.2.2.1 h.2.2.2 u
      (by rw [max4_ADCB]; exact hu1) (by rw [min4_ADCB]; exact hu2)

/-- Closed form of the accumulator after the split loop: bin `j` receives the
loop weight exactly when `j` lies in the iteration range. -/
lemma foldl_outCount (g : ℤ → ℚ) (d : ℚ) (n : ℕ) :
    ∀ (lo : ℤ) (acc : Acc) (j : ℤ),
      ((intRange lo n).foldl
        (fun a bin => ⟨addAt a.outData bin (d * g bin), addAt a.outCount bin (g bin)⟩)
        acc).outCount j
        = acc.outCount j + (if lo ≤ j ∧ j < lo + (n : ℤ) then g j else 0) := by
  induction n with
  | zero =>
      intro lo acc j
      rw [intRange]
      simp only [List.foldl_nil]
      rw [if_neg (by omega)]
      ring
  | succ n ih =>
      intro lo acc j
      rw [intRange]
      simp only [List.foldl_cons]
      rw [ih (lo + 1) _ j]
      simp only [addAt]
      rcases eq_or_ne j lo with h | h
      · subst h
        rw [if_pos rfl, if_neg (by omega), if_pos (by omega)]
        ring
      · rw [if_neg h]
        by_cases h3 : lo + 1 ≤ j ∧ j < lo + 1 + (n : ℤ)
        · rw [if_pos h3, if_pos (by omega)]
        · rw [if_neg h3, if_neg (by omega)]

end SplitPixelFull

namespace SplitPixelFull

/-- Positivity of the double constant `piover2`. -/
lemma piover2_pos : 0 < piover2 := by norm_num [piover2, piQ]

/-- C2: after every run of `fullSplit1D` (any inputs with `bins ≥ 2`, so the
entry assertion passes) and for every accumulator state reached by the
`fullSplit2D` pixel loop, each in-bounds bin `k` of `outMerge` equals
`outData[k] / outCount[k]` when `outCount[k] > epsilon` (`epsilon = 1e-10`),
and the dummy value (0 when no dummy was supplied) otherwise. -/
theorem C2_finalization (inp : Inputs1D) (k : ℤ)
    (b0 b1 : ℕ) (Dm Cm : ℤ → ℤ → ℚ) (cd : ℚ) (i j : ℤ)
    (_hb : 2 ≤ inp.bins) (h0 : 0 ≤ k) (h1 : k < (inp.bins : ℤ))
    (hi0 : 0 ≤ i) (hi1 : i < (b0 : ℤ)) (hj0 : 0 ≤ j) (hj1 : j < (b1 : ℤ)) :
    (fullSplit1D inp).outMerge k =
      (if epsilon < (fullSplit1D inp).outCount k then
        (fullSplit1D inp).outData k / (fullSplit1D inp).outCount k
       else cdummyOf inp.dummy)
    ∧ finalize2D b0 b1 Dm Cm cd i j =
      (if epsilon < Cm i j then Dm i j / Cm i j else cd) := by
  constructor
  · simp only [fullSplit1D]
    rw [if_pos ⟨h0, h1⟩]
  · simp only [finalize2D]
    rw [if_pos ⟨hi0, hi1, hj0, hj1⟩]

/-- Witness for C2 at a concrete call: `bins = 3`, no pixels, `dummy = -1`
(every bin empty, so `outMerge` is dummy-filled). -/
theorem C2_finalization_wit :
    2 ≤ inpD.bins ∧
      ((fullSplit1D inpD).outMerge 0 =
        (if epsilon < (fullSplit1D inpD).outCount 0 then
          (fullSplit1D inpD).outData 0 / (fullSplit1D inpD).outCount 0
         else cdummyOf inpD.dummy)
      ∧ finalize2D 2 2 (fun _ _ => 5) (fun _ _ => 1) 7 0 0 =
        (if epsilon < (1 : ℚ) then (5 : ℚ) / 1 else 7)) :=
  ⟨by norm_num [inpD],
   C2_finalization inpD 0 2 2 (fun _ _ => 5) (fun _ _ => 1) 7 0 0
     (by norm_num [inpD]) (by norm_num) (by norm_num [inpD])
     (by norm_num) (by norm_num) (by norm_num) (by norm_num)⟩

/-- C4 (failing input): the pixel of `inp4` straddles the lower boundary of
the output range (`min0 ≈ -0.5 < 0 ≤ max0`), is accepted by the range test
of line 296, and the split loop of lines 339-352 then writes half of its
weight to bin index `-1` — outside the bounds `[0, bins)` of `outCount` and
`outData` (bounds checking and wraparound are disabled in the source, so the
C code writes out of bounds).  The model indexes accumulators by ℤ and
records that write at `-1`. -/
theorem C4_out_of_bounds_write :
    (fullSplit1D inp4).outCount (-1) = 1/2 ∧
      (fullSplit1D inp4).outData (-1) = 7/2 := by
  norm_num [fullSplit1D, inp4, pos0_minOf, pos0_maxinOf, pos0_maxOf, dposOf,
    rangeMin, rangeMax, posMin0, posMax0, cdummyOf, cddummyOf, processPixel,
    skip1D, dummyMatch, binQuad, getBinNr, cornerMin0, cornerMax0, correct,
    addAt, eps32, List.range_succ, intRange, splitW, partArea, limOf, mkLine,
    integrate, area4, ind, maskAt, arrAt, epsilon, pixel0, abs_of_nonneg,
    abs_of_nonpos]

/-- C5 (failing input): `check_pos1` is initialized `False` (line 218) and
never set — line 231 assigns the unread variable `do_pos1` instead — so the
azimuthal filter of lines 298-302 is dead code.  The pixel of `inp5` has all
`pos1` corners in `[5, 5.1]`, entirely outside `pos1Range = (0, 1)`, yet it
is fully deposited in radial bin 1 instead of being discarded. -/
theorem C5_pos1_filter_dead :
    (fullSplit1D inp5).outCount 1 = 1 ∧ (fullSplit1D inp5).outData 1 = 4 := by
  norm_num [fullSplit1D, inp5, pos0_minOf, pos0_maxinOf, pos0_maxOf, dposOf,
    rangeMin, rangeMax, posMin0, posMax0, cdummyOf, cddummyOf, processPixel,
    skip1D, dummyMatch, binQuad, getBinNr, cornerMin0, cornerMax0, correct,
    addAt, eps32, List.range_succ, intRange, splitW, partArea, limOf, mkLine,
    integrate, area4, ind, maskAt, arrAt, epsilon, pixel0]

/-- C7 (counterexample): the claim fails in both directions — `fullSplit1D`
raises (`assert bins > 1`) on the positive bin count 1, and `fullSplit2D`
raises no error on non-positive bin counts, silently clamping them to 1. -/
theorem C7_counterexample :
    validBins1D 1 = false ∧ clampBins2D 0 = 1 ∧ clampBins2D (-5) = 1 := by
  decide

/-- C7 (amended): `fullSplit1D` accepts exactly the bin counts `≥ 2`
(raising on `bins ≤ 1`, including the positive value 1), while `fullSplit2D`
never raises for a bin count: a non-positive component is clamped to 1 and a
positive one is kept. -/
theorem C7_amended (b : ℕ) (z : ℤ) :
    (validBins1D b = true ↔ 2 ≤ b) ∧ 0 < clampBins2D z ∧
      (0 < z → clampBins2D z = z) := by
  refine ⟨?_, ?_, ?_⟩
  · simp only [validBins1D, decide_eq_true_eq]
    omega
  · unfold clampBins2D
    split <;> omega
  · intro hz
    unfold clampBins2D
    split <;> omega

/-- Witness for C7 (amended) at `b = 5`, `z = 3`. -/
theorem C7_amended_wit : validBins1D 5 = true ∧ clampBins2D 3 = 3 :=
  ⟨(C7_amended 5 3).1.mpr (by norm_num), (C7_amended 5 3).2.2 (by norm_num)⟩

/-- C10: the two entry points skip exactly the same pixels.  `fullSplit1D`
tests the mask before the dummy match and `fullSplit2D` tests them in the
opposite order, but both skip a pixel iff the mask is enabled and fires, or
the dummy test is enabled and the intensity matches the dummy value (exactly
when `delta_dummy = 0`, within `delta_dummy` otherwise). -/
theorem C10_skip_equivalence (cm : Bool) (mv : ℤ) (cd : Bool) (dm dd I : ℚ) :
    skip1D cm mv cd dm dd I = skip2D cm mv cd dm dd I
    ∧ (skip1D cm mv cd dm dd I = true ↔
        ((cm = true ∧ mv ≠ 0) ∨
         (cd = true ∧ ((dd = 0 ∧ I = dm) ∨ (dd ≠ 0 ∧ |I - dm| ≤ dd))))) := by
  constructor
  · simp only [skip1D, skip2D]
    exact Bool.or_comm _ _
  · simp only [skip1D, dummyMatch, Bool.or_eq_true, Bool.and_eq_true,
      decide_eq_true_eq]

/-- C3 (failing input): the degenerate pixel `px3` (zero-area quadrilateral,
the segment from `(0.5, 0)` to `(1.5, 0)`) is accepted by the range test and
reaches the split path of `fullSplit1D` (`bin0_min = 0 ≠ 1 = bin0_max`, area
exactly 0).  There the source computes `oneOverPixelArea = 1.0/0.0 = +inf`
and then `tmp = fabs(0.0) * inf = NaN`, which is added into `outCount` and
`outData`: the pixel does not contribute "exactly zero" — it poisons the
touched bins with NaN (every IEEE operation on this path is exact, so the
exact model `splitTmpE` reproduces the doubles faithfully). -/
theorem C3_degenerate_nan :
    skip1D false 0 false 0 0 1 = false
    ∧ ¬(cornerMax0 q3 < 0 ∨ ((10 : ℕ) : ℚ) ≤ cornerMin0 q3)
    ∧ ⌊cornerMin0 q3⌋ = 0 ∧ ⌊cornerMax0 q3⌋ = 1
    ∧ area4 q3.a0 q3.a1 q3.b0 q3.b1 q3.c0 q3.c1 q3.d0 q3.d1 = 0
    ∧ splitTmpE (EF.fin q3.a0) (EF.fin q3.a1) (EF.fin q3.b0) (EF.fin q3.b1)
        (EF.fin q3.c0) (EF.fin q3.c1) (EF.fin q3.d0) (EF.fin q3.d1)
        (EF.fin 0) = EF.nan := by
  norm_num [q3, env3, inp3, px3, binQuad, getBinNr, pos0_minOf, pos0_maxinOf,
    pos0_maxOf, dposOf, rangeMin, rangeMax, posMin0, posMax0, skip1D,
    dummyMatch, cornerMin0, cornerMax0, area4, eps32, splitTmpE, area4E,
    integrateE, limOfE, indE, EF.beq, EF.ble, EF.blt, EF.abs, EF.add, EF.sub,
    EF.neg, EF.mul, EF.div, min_def, max_def, abs_of_nonneg, abs_of_nonpos]

/-- Pairwise disjointness of the six wrap-around corner patterns: no two of
the disjuncts of `foo` can fire together, since each pair constrains some
corner to be simultaneously above `+pi/2` and below `-pi/2`. -/
lemma patDisj (A B C D : ℚ) :
    ¬(pat1 A B C D ∧ pat2 A B C D)
    ∧ ¬(pat1 A B C D ∧ pat3 A B C D)
    ∧ ¬(pat1 A B C D ∧ pat4 A B C D)
    ∧ ¬(pat1 A B C D ∧ pat5 A B C D)
    ∧ ¬(pat1 A B C D ∧ pat6 A B C D)
    ∧ ¬(pat2 A B C D ∧ pat3 A B C D)
    ∧ ¬(pat2 A B C D ∧ pat4 A B C D)
    ∧ ¬(pat2 A B C D ∧ pat5 A B C D)
    ∧ ¬(pat2 A B C D ∧ pat6 A B C D)
    ∧ ¬(pat3 A B C D ∧ pat4 A B C D)
    ∧ ¬(pat3 A B C D ∧ pat5 A B C D)
    ∧ ¬(pat3 A B C D ∧ pat6 A B C D)
    ∧ ¬(pat4 A B C D ∧ pat5 A B C D)
    ∧ ¬(pat4 A B C D ∧ pat6 A B C D)
    ∧ ¬(pat5 A B C D ∧ pat6 A B C D) := by
  simp only [pat1, pat2, pat3, pat4, pat5, pat6]
  refine ⟨?_, ?_, ?_, ?_, ?_, ?_, ?_, ?_, ?_, ?_, ?_, ?_, ?_, ?_, ?_⟩ <;>
    (rintro ⟨⟨h1, h2, h3, h4⟩, h5, h6, h7, h8⟩
     linarith [piover2_pos])

/-- C6: the wrap-around predicate `foo` holds exactly when one of the six
disjoint sign patterns of corners above `+pi/2` / below `-pi/2` holds, and
`getBin1Nr` invoked with `var = foo(...)` (as `fullSplit2D` does at lines
516-520) shifts a corner by `+2*pi` exactly when `foo` fired and that
corner's `pos1` is negative; all other corners convert unshifted. -/
theorem C6_wraparound (A B C D x m d : ℚ) :
    (foo A B C D = true ↔
      (pat1 A B C D ∨ pat2 A B C D ∨ pat3 A B C D ∨ pat4 A B C D ∨
        pat5 A B C D ∨ pat6 A B C D))
    ∧ (¬(pat1 A B C D ∧ pat2 A B C D)
       ∧ ¬(pat1 A B C D ∧ pat3 A B C D)
       ∧ ¬(pat1 A B C D ∧ pat4 A B C D)
       ∧ ¬(pat1 A B C D ∧ pat5 A B C D)
       ∧ ¬(pat1 A B C D ∧ pat6 A B C D)
       ∧ ¬(pat2 A B C D ∧ pat3 A B C D)
       ∧ ¬(pat2 A B C D ∧ pat4 A B C D)
       ∧ ¬(pat2 A B C D ∧ pat5 A B C D)
       ∧ ¬(pat2 A B C D ∧ pat6 A B C D)
       ∧ ¬(pat3 A B C D ∧ pat4 A B C D)
       ∧ ¬(pat3 A B C D ∧ pat5 A B C D)
       ∧ ¬(pat3 A B C D ∧ pat6 A B C D)
       ∧ ¬(pat4 A B C D ∧ pat5 A B C D)
       ∧ ¬(pat4 A B C D ∧ pat6 A B C D)
       ∧ ¬(pat5 A B C D ∧ pat6 A B C D))
    ∧ getBin1Nr x m d (foo A B C D) =
        (if foo A B C D = true ∧ x < 0 then (x + 2 * piQ - m) / d
         else (x - m) / d) := by
  refine ⟨?_, patDisj A B C D, ?_⟩
  · simp only [foo, pat1, pat2, pat3, pat4, pat5, pat6, Bool.or_eq_true,
      Bool.and_eq_true, decide_eq_true_eq, and_assoc, or_assoc]
  · cases hf : foo A B C D
    · have hL : getBin1Nr x m d false = (x - m) / d := rfl
      rw [hL, if_neg]
      rintro ⟨h1, -⟩
      exact Bool.false_ne_true h1
    · have hL : getBin1Nr x m d true =
          (if 0 ≤ x then (x - m) / d else (x + 2 * piQ - m) / d) := rfl
      rw [hL]
      rcases le_or_lt 0 x with hx | hx
      · rw [if_pos hx, if_neg]
        rintro ⟨-, hx2⟩
        exact absurd hx2 (not_lt.mpr hx)
      · rw [if_neg (not_le.mpr hx), if_pos ⟨rfl, hx⟩]

/-- Generic form of the upper-bound expansion property: expanding the upper
range bound by the factor `1 + eps` (with `eps > 0`) makes the fractional
bin index of `pos0_maxin` strictly less than the bin count, provided
`pos0_maxin` is positive. -/
lemma binNr_max_lt (m x : ℚ) (b : ℕ) (eps : ℚ) (h1 : m ≤ x) (h2 : 0 < x)
    (h3 : 0 < b) (heps : 0 < eps) :
    getBinNr x m ((x * (1 + eps) - m) / (b : ℚ)) < (b : ℚ) := by
  have hb : (0 : ℚ) < (b : ℚ) := by exact_mod_cast h3
  have hnum : 0 < x * (1 + eps) - m := by nlinarith
  have hd : 0 < (x * (1 + eps) - m) / (b : ℚ) := div_pos hnum hb
  rw [getBinNr, div_lt_iff₀ hd, mul_comm, div_mul_cancel₀ _ (ne_of_gt hb)]
  nlinarith

/-- C8 (counterexample): in `fullSplit2D` the upper bound is expanded by one
float64 ulp (line 450 uses `numpy.finfo(numpy.float64).eps`), not by one
float32 ulp as the claim states for both entry points. -/
theorem C8_counterexample : pos0_max2D 1 ≠ 1 * (1 + eps32) := by
  norm_num [pos0_max2D, eps64, eps32]

/-- C8 (amended): `fullSplit1D` expands `pos0_maxin` by `1 + eps32` (float32
epsilon, line 227) and `fullSplit2D` by `1 + eps64` (float64 epsilon, line
450); in both cases, when `pos0_min ≤ pos0_maxin` and `pos0_maxin > 0`, the
input `pos0 = pos0_maxin` maps strictly below the bin count.  (For
`pos0_maxin ≤ 0` the expansion shrinks the bound and the property fails,
which is the positivity hypothesis here.) -/
theorem C8_amended (m x : ℚ) (b : ℕ) (h1 : m ≤ x) (h2 : 0 < x) (h3 : 0 < b) :
    getBinNr x m ((x * (1 + eps32) - m) / (b : ℚ)) < (b : ℚ)
    ∧ getBinNr x m ((pos0_max2D x - m) / (b : ℚ)) < (b : ℚ) := by
  constructor
  · exact binNr_max_lt m x b eps32 h1 h2 h3 (by norm_num [eps32])
  · rw [pos0_max2D]
    exact binNr_max_lt m x b eps64 h1 h2 h3 (by norm_num [eps64])

/-- Witness for C8 (amended) at `pos0_min = 0`, `pos0_maxin = 1`,
`bins = 10`. -/
theorem C8_amended_wit :
    (0 : ℚ) ≤ 1 ∧
      (getBinNr 1 0 ((1 * (1 + eps32) - 0) / ((10 : ℕ) : ℚ)) < ((10 : ℕ) : ℚ)
       ∧ getBinNr 1 0 ((pos0_max2D 1 - 0) / ((10 : ℕ) : ℚ)) < ((10 : ℕ) : ℚ)) :=
  ⟨by norm_num, C8_amended 0 1 10 (by norm_num) (by norm_num) (by norm_num)⟩

/-- C9 (counterexample): with `bins = 2` and `pos0Range = (0, 1)`, the second
bin center produced by the `linspace` of line 238 is
`1 - dpos/4 - ...`, strictly different from the claimed
`pos0_min + (1 + 1/2) * dpos`: the linspace runs to `pos0_maxin - dpos/2`,
not `pos0_max - dpos/2`, so its step is smaller than `dpos` whenever
`pos0_maxin ≠ 0`. -/
theorem C9_counterexample :
    (fullSplit1D inp9).outPos 1 ≠
      pos0_minOf inp9 + (1 + 1/2) * dposOf inp9 := by
  norm_num [fullSplit1D, inp9, pos0_minOf, pos0_maxinOf, pos0_maxOf, dposOf,
    rangeMin, rangeMax, posMin0, posMax0, linspaceQ, eps32]

/-- C9 (amended): the bin centers are the exact linspace values
`outPos[k] = pos0_min + dpos/2 + k*(pos0_maxin - pos0_min - dpos)/(bins-1)`
(and correspondingly for `edges1` in 2D); the step is
`(pos0_maxin - pos0_min - dpos)/(bins-1)`, which differs from `dpos` by
`-pos0_maxin*eps/(bins-1)`, so the claimed `pos0_min + (k+0.5)*dpos` form
holds only at `k = 0` (or when `pos0_maxin = 0`). -/
theorem C9_amended (inp : Inputs1D) (k : ℕ) (p1min p1maxin d1 : ℚ) (b1 : ℕ)
    (hb : 2 ≤ inp.bins) (hb1 : 2 ≤ b1) :
    (fullSplit1D inp).outPos k =
      pos0_minOf inp + (1/2) * dposOf inp +
        (k : ℚ) * (pos0_maxinOf inp - pos0_minOf inp - dposOf inp) /
          ((inp.bins : ℚ) - 1)
    ∧ edges1_2D p1min p1maxin d1 b1 k =
      p1min + (1/2) * d1 + (k : ℚ) * (p1maxin - p1min - d1) / ((b1 : ℚ) - 1) := by
  constructor
  · show linspaceQ (pos0_minOf inp + (1/2) * dposOf inp)
      (pos0_maxinOf inp - (1/2) * dposOf inp) inp.bins k = _
    rw [linspaceQ, if_neg (by omega)]
    ring
  · rw [edges1_2D, linspaceQ, if_neg (by omega)]
    ring

/-- Witness for C9 (amended) at `inp9` (`bins = 2`), `k = 1`, and a 2D axis
with `pos1_min = 0`, `pos1_maxin = 1`, `delta1 = 1/2`, `all_bins1 = 4`. -/
theorem C9_amended_wit :
    2 ≤ inp9.bins ∧
      ((fullSplit1D inp9).outPos 1 =
        pos0_minOf inp9 + (1/2) * dposOf inp9 +
          (1 : ℚ) * (pos0_maxinOf inp9 - pos0_minOf inp9 - dposOf inp9) /
            ((inp9.bins : ℚ) - 1)
      ∧ edges1_2D 0 1 (1/2) 4 1 =
        0 + (1/2) * (1/2) + (1 : ℚ) * (1 - 0 - 1/2) / (((4 : ℕ) : ℚ) - 1)) :=
  ⟨by norm_num [inp9],
   by
    have h := C9_amended inp9 1 0 1 (1/2) 4 (by norm_num [inp9]) (by norm_num)
    simpa using h⟩

/-- C1: partition of unity per pixel.  For any pixel that passes the skip
test and the acceptance test of the `fullSplit1D` pixel loop (source lines
276-302), whose quadrilateral in fractional-bin coordinates is strictly
convex (either orientation, hence non-degenerate), the sum `S` over the
output bins `0, …, bins-1` of the weights the loop deposits in `outCount`
(source lines 304-353: weight 1 on the fast path, `|partialArea| / areaPixel`
per bin on the split path) satisfies `0 ≤ S ≤ 1`, with `S = 1` exactly when
the pixel is fully inside the output range (`0 ≤ min0` and `max0 ≤ bins`).
Arithmetic is exact (ℚ), matching the claim's "exact real arithmetic". -/
theorem C1_partition_of_unity (e : Env1D) (mval : ℤ) (raw dk fl pl sl : ℚ)
    (p : Pixel) (S : ℚ) (_hbins : 1 < e.bins)
    (hskip : skip1D e.checkMask mval e.checkDummy e.cdummy e.cddummy raw = false)
    (hacc : ¬(cornerMax0 (binQuad e p) < 0 ∨ (e.bins : ℚ) ≤ cornerMin0 (binQuad e p)))
    (hconv : ConvexCCW (binQuad e p) ∨ ConvexCW (binQuad e p))
    (hS : S = Finset.sum (Finset.Ico (0 : ℤ) ((e.bins : ℤ)))
      (fun k => (processPixel e mval raw dk fl pl sl p
        ⟨fun _ => 0, fun _ => 0⟩).outCount k)) :
    0 ≤ S ∧ S ≤ 1 ∧
      (S = 1 ↔ 0 ≤ cornerMin0 (binQuad e p) ∧
        cornerMax0 (binQuad e p) ≤ (e.bins : ℚ)) := by
  have hskip' : ¬(skip1D e.checkMask mval e.checkDummy e.cdummy e.cddummy raw = true) := by
    rw [hskip]
    exact Bool.false_ne_true
  simp only [processPixel, if_neg hskip'] at hS
  set q := binQuad e p with hq
  simp only [if_neg hacc] at hS
  push_neg at hacc
  obtain ⟨hmax0, hmin0⟩ := hacc
  set lo := ⌊cornerMin0 q⌋ with hlo
  set hi := ⌊cornerMax0 q⌋ with hhi
  have hmin4 : min4 q.a0 q.b0 q.c0 q.d0 = cornerMin0 q := rfl
  have hmax4 : max4 q.a0 q.b0 q.c0 q.d0 = cornerMax0 q := rfl
  have hminmax : cornerMin0 q ≤ cornerMax0 q := by
    have h1 : min4 q.a0 q.b0 q.c0 q.d0 ≤ q.a0 := min4_le_1 q.a0 q.b0 q.c0 q.d0
    have h2 : q.a0 ≤ max4 q.a0 q.b0 q.c0 q.d0 := le_max4_1 q.a0 q.b0 q.c0 q.d0
    rw [← hmin4, ← hmax4]
    linarith
  have hfl1 : (lo : ℚ) ≤ cornerMin0 q := by rw [hlo]; exact Int.floor_le _
  have hfl2 : cornerMax0 q < (hi : ℚ) + 1 := by rw [hhi]; exact Int.lt_floor_add_one _
  have hlohi : lo ≤ hi := by rw [hlo, hhi]; exact Int.floor_le_floor hminmax
  have hlobins : lo < (e.bins : ℤ) := by
    rw [hlo]
    refine Int.floor_lt.mpr ?_
    push_cast
    exact hmin0
  have h0hi : (0 : ℤ) ≤ hi := by
    rw [hhi]
    refine Int.le_floor.mpr ?_
    push_cast
    exact hmax0
  have hcx : ConvexPosQ q.a0 q.a1 q.b0 q.b1 q.c0 q.c1 q.d0 q.d1 ∨
      ConvexPosQ q.a0 q.a1 q.d0 q.d1 q.c0 q.c1 q.b0 q.b1 := by
    rcases hconv with h | h
    · exact Or.inl h
    · exact Or.inr (ConvexPosQ_rev h.1 h.2.1 h.2.2.1 h.2.2.2)
  rcases eq_or_ne lo hi with hfast | hsplit
  · -- fast path: the whole weight 1 goes to bin `lo`
    simp only [if_pos hfast] at hS
    have hS' : S = (if lo ∈ Finset.Ico (0 : ℤ) ((e.bins : ℤ)) then (1 : ℚ) else 0) := by
      have h1 : S = Finset.sum (Finset.Ico (0 : ℤ) ((e.bins : ℤ)))
          (fun k => if k = lo then (1 : ℚ) else 0) := by
        rw [hS]
        apply Finset.sum_congr rfl
        intro k _
        simp [addAt]
      rw [h1]
      exact Finset.sum_ite_eq' _ _ _
    by_cases hmem : lo ∈ Finset.Ico (0 : ℤ) ((e.bins : ℤ))
    · rw [if_pos hmem] at hS'
      rw [Finset.mem_Ico] at hmem
      obtain ⟨h0lo, _⟩ := hmem
      refine ⟨by rw [hS']; norm_num, le_of_eq hS', ?_⟩
      constructor
      · intro _
        constructor
        · have hc : (0 : ℚ) ≤ (lo : ℚ) := by exact_mod_cast h0lo
          linarith
        · have hc : (lo : ℚ) + 1 ≤ (e.bins : ℚ) := by
            have hz : lo + 1 ≤ (e.bins : ℤ) := by omega
            exact_mod_cast hz
          have hcast : (hi : ℚ) = (lo : ℚ) := by rw [hfast]
          linarith
      · intro _
        exact hS'
    · rw [if_neg hmem] at hS'
      refine ⟨le_of_eq hS'.symm, by rw [hS']; norm_num, ?_⟩
      constructor
      · intro h1
        rw [hS'] at h1
        norm_num at h1
      · intro hin
        obtain ⟨hin1, _⟩ := hin
        exfalso
        apply hmem
        rw [Finset.mem_Ico]
        constructor
        · rw [hlo]
          refine Int.le_floor.mpr ?_
          push_cast
          exact hin1
        · exact hlobins
  · -- split path
    simp only [if_neg hsplit] at hS
    simp only [foldl_outCount, zero_add] at hS
    have hn : lo + (((hi + 1 - lo).toNat : ℕ) : ℤ) = hi + 1 := by omega
    simp only [hn] at hS
    have hWptwise : ∀ k ∈ Finset.Ico (0 : ℤ) ((e.bins : ℤ)),
        (if lo ≤ k ∧ k < hi + 1 then
          splitW (q.a0 - (lo : ℚ)) q.a1 (q.b0 - (lo : ℚ)) q.b1 (q.c0 - (lo : ℚ)) q.c1
            (q.d0 - (lo : ℚ)) q.d1 (((k - lo : ℤ) : ℚ)) else 0)
          = (if k ∈ Finset.Ico lo (hi + 1) then
              colW q.a0 q.a1 q.b0 q.b1 q.c0 q.c1 q.d0 q.d1 k else 0) := by
      intro k _
      rw [splitW_eq_colW]
      exact if_congr (Finset.mem_Ico).symm rfl rfl
    have hSm : S = Finset.sum (Finset.Ico (max 0 lo) (min ((e.bins : ℤ)) (hi + 1)))
        (colW q.a0 q.a1 q.b0 q.b1 q.c0 q.c1 q.d0 q.d1) := by
      rw [hS, Finset.sum_congr rfl hWptwise, Finset.sum_ite_mem, Finset.Ico_inter_Ico]
    set m := max 0 lo with hm
    set M := min ((e.bins : ℤ)) (hi + 1) with hM
    have hsubset : Finset.Ico m M ⊆ Finset.Ico lo (hi + 1) :=
      Finset.Ico_subset_Ico (by rw [hm]; exact le_max_right _ _)
        (by rw [hM]; exact min_le_right _ _)
    have hfull : Finset.sum (Finset.Ico lo (hi + 1))
        (colW q.a0 q.a1 q.b0 q.b1 q.c0 q.c1 q.d0 q.d1) = 1 :=
      colW_sum_or hcx (by rw [hmin4]; exact hfl1) (by rw [hmax4]; exact hfl2)
    have hS0 : 0 ≤ S := by
      rw [hSm]
      exact Finset.sum_nonneg fun k _ => colW_nonneg _ _ _ _ _ _ _ _ k
    have hS1 : S ≤ 1 := by
      rw [hSm, ← hfull]
      exact Finset.sum_le_sum_of_subset_of_nonneg hsubset
        fun i _ _ => colW_nonneg _ _ _ _ _ _ _ _ i
    refine ⟨hS0, hS1, ?_⟩
    constructor
    · intro hS1'
      constructor
      · by_contra hneg
        push_neg at hneg
        have hloneg : lo < 0 := by
          rw [hlo]
          refine Int.floor_lt.mpr ?_
          push_cast
          exact hneg
        have hmzero : m = 0 := by rw [hm]; exact max_eq_left (by omega)
        have hcol : 0 < colW q.a0 q.a1 q.b0 q.b1 q.c0 q.c1 q.d0 q.d1 (-1) := by
          apply colW_pos_or hcx
          · rw [hmax4]
            push_cast
            linarith
          · rw [hmin4]
            push_cast
            linarith
        have hsplit2 : Finset.sum (Finset.Ico lo (hi + 1))
            (colW q.a0 q.a1 q.b0 q.b1 q.c0 q.c1 q.d0 q.d1) =
            Finset.sum (Finset.Ico lo 0)
              (colW q.a0 q.a1 q.b0 q.b1 q.c0 q.c1 q.d0 q.d1) +
            Finset.sum (Finset.Ico 0 (hi + 1))
              (colW q.a0 q.a1 q.b0 q.b1 q.c0 q.c1 q.d0 q.d1) :=
          sum_Ico_split _ (by omega) (by omega)
        have hleft : colW q.a0 q.a1 q.b0 q.b1 q.c0 q.c1 q.d0 q.d1 (-1) ≤
            Finset.sum (Finset.Ico lo 0)
              (colW q.a0 q.a1 q.b0 q.b1 q.c0 q.c1 q.d0 q.d1) := by
          have hsub : ({-1} : Finset ℤ) ⊆ Finset.Ico lo 0 := by
            intro x hx
            rw [Finset.mem_singleton] at hx
            subst hx
            rw [Finset.mem_Ico]
            omega
          calc colW q.a0 q.a1 q.b0 q.b1 q.c0 q.c1 q.d0 q.d1 (-1)
              = Finset.sum ({-1} : Finset ℤ)
                  (colW q.a0 q.a1 q.b0 q.b1 q.c0 q.c1 q.d0 q.d1) :=
                (Finset.sum_singleton _ _).symm
            _ ≤ _ := Finset.sum_le_sum_of_subset_of_nonneg hsub
                fun i _ _ => colW_nonneg _ _ _ _ _ _ _ _ i
        have hright : S ≤ Finset.sum (Finset.Ico 0 (hi + 1))
            (colW q.a0 q.a1 q.b0 q.b1 q.c0 q.c1 q.d0 q.d1) := by
          rw [hSm, hmzero]
          exact Finset.sum_le_sum_of_subset_of_nonneg
            (Finset.Ico_subset_Ico le_rfl (by rw [hM]; exact min_le_right _ _))
            fun i _ _ => colW_nonneg _ _ _ _ _ _ _ _ i
        rw [hS1'] at hright
        linarith
      · by_contra hneg
        push_neg at hneg
        have hbinshi : (e.bins : ℤ) ≤ hi := by
          rw [hhi]
          refine Int.le_floor.mpr ?_
          push_cast
          linarith
        have hcol : 0 < colW q.a0 q.a1 q.b0 q.b1 q.c0 q.c1 q.d0 q.d1 ((e.bins : ℤ)) := by
          apply colW_pos_or hcx
          · rw [hmax4]
            push_cast
            linarith
          · rw [hmin4]
            push_cast
            linarith
        have hsplit2 : Finset.sum (Finset.Ico lo (hi + 1))
            (colW q.a0 q.a1 q.b0 q.b1 q.c0 q.c1 q.d0 q.d1) =
            Finset.sum (Finset.Ico lo ((e.bins : ℤ)))
              (colW q.a0 q.a1 q.b0 q.b1 q.c0 q.c1 q.d0 q.d1) +
            Finset.sum (Finset.Ico ((e.bins : ℤ)) (hi + 1))
              (colW q.a0 q.a1 q.b0 q.b1 q.c0 q.c1 q.d0 q.d1) :=
          sum_Ico_split _ (by omega) (by omega)
        have hright : colW q.a0 q.a1 q.b0 q.b1 q.c0 q.c1 q.d0 q.d1 ((e.bins : ℤ)) ≤
            Finset.sum (Finset.Ico ((e.bins : ℤ)) (hi + 1))
              (colW q.a0 q.a1 q.b0 q.b1 q.c0 q.c1 q.d0 q.d1) := by
          have hsub : ({((e.bins : ℤ))} : Finset ℤ) ⊆ Finset.Ico ((e.bins : ℤ)) (hi + 1) := by
            intro x hx
            rw [Finset.mem_singleton] at hx
            subst hx
            rw [Finset.mem_Ico]
            omega
          calc colW q.a0 q.a1 q.b0 q.b1 q.c0 q.c1 q.d0 q.d1 ((e.bins : ℤ))
              = Finset.sum ({((e.bins : ℤ))} : Finset ℤ)
                  (colW q.a0 q.a1 q.b0 q.b1 q.c0 q.c1 q.d0 q.d1) :=
                (Finset.sum_singleton _ _).symm
            _ ≤ _ := Finset.sum_le_sum_of_subset_of_nonneg hsub
                fun i _ _ => colW_nonneg _ _ _ _ _ _ _ _ i
        have hleft : S ≤ Finset.sum (Finset.Ico lo ((e.bins : ℤ)))
            (colW q.a0 q.a1 q.b0 q.b1 q.c0 q.c1 q.d0 q.d1) := by
          have hMbins : M = (e.bins : ℤ) := by rw [hM]; exact min_eq_left (by omega)
          rw [hSm, hMbins]
          exact Finset.sum_le_sum_of_subset_of_nonneg
            (Finset.Ico_subset_Ico (by rw [hm]; exact le_max_right _ _) le_rfl)
            fun i _ _ => colW_nonneg _ _ _ _ _ _ _ _ i
        rw [hS1'] at hleft
        linarith
    · intro hin
      obtain ⟨hin1, hin2⟩ := hin
      have h0lo : (0 : ℤ) ≤ lo := by
        rw [hlo]
        refine Int.le_floor.mpr ?_
        push_cast
        exact hin1
      have hmlo : m = lo := by rw [hm]; exact max_eq_right h0lo
      have hhibins : hi ≤ (e.bins : ℤ) := by
        rw [hhi]
        calc ⌊cornerMax0 q⌋ ≤ ⌊(((e.bins : ℤ)) : ℚ)⌋ :=
              Int.floor_le_floor (by push_cast; exact hin2)
          _ = (e.bins : ℤ) := Int.floor_intCast _
      rcases eq_or_lt_of_le hhibins with heq | hlt
      · have hMeq : M = (e.bins : ℤ) := by rw [hM]; exact min_eq_left (by omega)
        have hzero : colW q.a0 q.a1 q.b0 q.b1 q.c0 q.c1 q.d0 q.d1 ((e.bins : ℤ)) = 0 := by
          apply colW_zero_left
          · push_cast
            exact le_trans (le_max4_1 q.a0 q.b0 q.c0 q.d0) hin2
          · push_cast
            exact le_trans (le_max4_2 q.a0 q.b0 q.c0 q.d0) hin2
          · push_cast
            exact le_trans (le_max4_3 q.a0 q.b0 q.c0 q.d0) hin2
          · push_cast
            exact le_trans (le_max4_4 q.a0 q.b0 q.c0 q.d0) hin2
        have hsum2 : Finset.sum (Finset.Ico lo (hi + 1))
            (colW q.a0 q.a1 q.b0 q.b1 q.c0 q.c1 q.d0 q.d1) =
            Finset.sum (Finset.Ico lo ((e.bins : ℤ)))
              (colW q.a0 q.a1 q.b0 q.b1 q.c0 q.c1 q.d0 q.d1) +
            Finset.sum (Finset.Ico ((e.bins : ℤ)) (hi + 1))
              (colW q.a0 q.a1 q.b0 q.b1 q.c0 q.c1 q.d0 q.d1) :=
          sum_Ico_split _ (by omega) (by omega)
        have hsing : Finset.sum (Finset.Ico ((e.bins : ℤ)) (hi + 1))
            (colW q.a0 q.a1 q.b0 q.b1 q.c0 q.c1 q.d0 q.d1) =
            colW q.a0 q.a1 q.b0 q.b1 q.c0 q.c1 q.d0 q.d1 ((e.bins : ℤ)) := by
          have he : hi + 1 = (e.bins : ℤ) + 1 := by omega
          rw [he]
          exact sum_Ico_singleton _ _
        rw [hSm, hmlo, hMeq]
        have hres := hfull
        rw [hsum2, hsing, hzero, add_zero] at hres
        exact hres
      · have hMeq : M = hi + 1 := by rw [hM]; exact min_eq_right (by omega)
        rw [hSm, hmlo, hMeq]
        exact hfull

/-- Witness for C1: the unit square `pxW` over bins `[0.5, 1.5]` in the
3-bin environment `envW` is accepted, strictly convex CCW, fully in range,
and its deposited weights (1/2 in bin 0, 1/2 in bin 1) sum to exactly 1. -/
theorem C1_partition_of_unity_wit :
    0 ≤ (1 : ℚ) ∧ (1 : ℚ) ≤ 1 ∧
      ((1 : ℚ) = 1 ↔ 0 ≤ cornerMin0 (binQuad envW pxW) ∧
        cornerMax0 (binQuad envW pxW) ≤ (envW.bins : ℚ)) :=
  C1_partition_of_unity envW 0 5 0 0 0 0 pxW 1
    (by norm_num [envW])
    (by norm_num [skip1D, envW, dummyMatch])
    (by norm_num [binQuad, envW, pxW, cornerMax0, cornerMin0, getBinNr])
    (Or.inl (by norm_num [ConvexCCW, crossQ, binQuad, envW, pxW, getBinNr]))
    (by
      have hIco : Finset.Ico (0 : ℤ) ((envW.bins : ℤ)) = {0, 1, 2} := by decide
      rw [hIco, Finset.sum_insert (by decide), Finset.sum_insert (by decide),
        Finset.sum_singleton]
      norm_num [processPixel, envW, pxW, skip1D, dummyMatch, binQuad, getBinNr,
        cornerMin0, cornerMax0, correct, addAt, intRange, splitW, partArea,
        limOf, mkLine, integrate, area4, ind, abs_of_nonneg, abs_of_nonpos])

end SplitPixelFull
